import Mathlib

/-!
The streaming tokenizer and the tree walk of srctoken.

A shallow embedding of `token.go`: the byte classifier `isSplitter`, the
`bufio.SplitFunc` `CodeWordSplitter`, the scanning loop of `TokenizeFile`, and
the recursive walk `TokenizeDir`, followed by the properties proved of them.
-/

namespace Srctoken

/-! ## Data model -/

/-- A Go `byte`. -/
abbrev Byte := Fin 256

/-- Go: `type Token string`; a token is kept as its bytes. -/
abbrev Token := List Byte

/-- Go: `type Path string`. -/
abbrev Path := String

/-- Go: `type TokenizeOptions struct { FolderExcludeRegex, FileIncludeRegex string }`. -/
structure TokenizeOptions where
  FolderExcludeRegex : String
  FileIncludeRegex : String
deriving DecidableEq, Repr

/-- The bytes of an ASCII string (for writing concrete inputs). -/
def asciiBytes (s : String) : List Byte :=
  s.toList.map (fun c => ⟨c.toNat % 256, Nat.mod_lt _ (by decide)⟩)

/-! ## The tokenizer -/

/-- Go: `isSplitter(ch byte) bool`. -/
def isSplitter (ch : Byte) : Bool :=
  !((ch.val ≥ 'A'.toNat && ch.val ≤ 'Z'.toNat) ||
    (ch.val ≥ 'a'.toNat && ch.val ≤ 'z'.toNat) ||
    (ch.val ≥ '0'.toNat && ch.val ≤ '9'.toNat) ||
    (ch.val == '_'.toNat || ch.val == '-'.toNat || ch.val == '.'.toNat ||
      ch.val == '*'.toNat || ch.val == '&'.toNat))

/-- Go: `var minTokenLen int = 2`. -/
def minTokenLen : Int := 2

/-- The triple `(advance, token, err)` returned by a `bufio.SplitFunc`;
`token = none` is the nil slice, `err = none` the nil error. -/
structure SplitResult where
  advance : Nat
  token : Option (List Byte)
  err : Option String
deriving DecidableEq, Repr

/-- Go: the slice expression `data[lo:hi]`. -/
def slice (data : List Byte) (lo hi : Nat) : List Byte :=
  (data.take hi).drop lo

/-- The `for i, textByte := range data` loop of `CodeWordSplitter`, started at
index `i` on the bytes not yet visited, with the current values of the locals
`foundTokenChar`, `sliceStart`, `splits`.  `Sum.inl` is the `return` inside the
loop, `Sum.inr` the values of the locals when the loop falls through. -/
def splitLoop (data : List Byte) :
    List Byte → Nat → Bool → Nat → Bool → Sum SplitResult (Bool × Nat × Bool)
  | [], _, foundTokenChar, sliceStart, splits => Sum.inr (foundTokenChar, sliceStart, splits)
  | textByte :: rest, i, foundTokenChar, sliceStart, _ =>
    let splits := isSplitter textByte
    if splits && foundTokenChar then
      if (i : Int) - (sliceStart : Int) < minTokenLen then
        splitLoop data rest (i + 1) false sliceStart splits
      else
        Sum.inl ⟨i, some (slice data sliceStart i), none⟩
    else if !splits && !foundTokenChar then
      splitLoop data rest (i + 1) true i splits
    else
      splitLoop data rest (i + 1) foundTokenChar sliceStart splits

/-- The code of `CodeWordSplitter` after the loop: the end-of-stream and the
end-of-chunk cases. -/
def splitFinish (data : List Byte) (atEOF : Bool) (sliceStart : Nat) (splits : Bool) :
    SplitResult :=
  if atEOF then
    if !splits && decide ((data.length : Int) - (sliceStart : Int) ≥ minTokenLen) then
      ⟨data.length, some (data.drop sliceStart), none⟩
    else
      ⟨data.length, none, none⟩
  else if splits then
    ⟨data.length, none, none⟩
  else
    ⟨sliceStart, none, none⟩

/-- Go: `CodeWordSplitter(data []byte, atEOF bool) (int, []byte, error)`. -/
def CodeWordSplitter (data : List Byte) (atEOF : Bool) : SplitResult :=
  match splitLoop data data 0 false 0 false with
  | Sum.inl r => r
  | Sum.inr (_, sliceStart, splits) => splitFinish data atEOF sliceStart splits

/-- The result of `CodeWordSplitter` when its loop stands at index `i` on the
bytes `rest` with the given values of the locals. -/
def splitFrom (data rest : List Byte) (i : Nat) (foundTokenChar : Bool) (sliceStart : Nat)
    (splits atEOF : Bool) : SplitResult :=
  match splitLoop data rest i foundTokenChar sliceStart splits with
  | Sum.inl r => r
  | Sum.inr (_, sliceStart', splits') => splitFinish data atEOF sliceStart' splits'

/-- The result `r` with `k` more bytes consumed. -/
def SplitResult.shift (k : Nat) (r : SplitResult) : SplitResult :=
  ⟨k + r.advance, r.token, r.err⟩

/-- The driving protocol of a split function in its plain form: call
`CodeWordSplitter` on the unconsumed bytes, emit the returned token if there is
one, drop `advance` bytes, repeat until a call with `atEOF = true` returns no
token.  `buf` holds the bytes read and not yet consumed, `chunks` the reads still
to come; the last read arrives with the end of the stream, so `atEOF = true`
exactly when no read is left (a bare end-of-file read is an empty last chunk).
With no token the next read is appended, or the loop ends at the end of the
stream.  The buffer is not bounded here: the scanner of package bufio, with its
bound, is `scanRun` below.  The first argument bounds the number of calls:
`none` means the bound was reached before the loop ended. -/
def scanTokens : Nat → List Byte → List (List Byte) → Option (List Token)
  | 0, _, _ => none
  | fuel + 1, buf, chunks =>
    let r := CodeWordSplitter buf chunks.isEmpty
    match r.token with
    | some tok => (scanTokens fuel (buf.drop r.advance) chunks).map (fun toks => tok :: toks)
    | none =>
      match chunks with
      | [] => some []
      | chunk :: later => scanTokens fuel (buf.drop r.advance ++ chunk) later

/-- A number of calls that suffices for `scanTokens`: every call either ends
the loop, takes the next read, or consumes at least two buffered bytes. -/
def scanFuel (buf : List Byte) (chunks : List (List Byte)) : Nat :=
  buf.length + (chunks.map (fun c => c.length + 1)).sum + 1

/-! ## The scanner of package bufio -/

/-- Go: `bufio.MaxScanTokenSize`, the `maxTokenSize` of a `bufio.NewScanner`. -/
def maxScanTokenSize : Nat := 64 * 1024

/-- Go: `startBufSize` of package bufio, the first size of the scanner's buffer. -/
def startBufSize : Nat := 4096

/-- Go: `maxConsecutiveEmptyReads` of package bufio. -/
def maxConsecutiveEmptyReads : Nat := 100

/-- Go: `maxInt` in `Scan`, on a 64-bit platform. -/
def maxInt : Nat := 2 ^ 63 - 1

/-- The values of the scanner's field `err`: `io.EOF`, `bufio.ErrTooLong`,
`bufio.ErrAdvanceTooFar`, `io.ErrNoProgress`, an error of the split function,
and the panic of `Scan` on too many empty tokens. -/
inductive ScanError where
  | eof
  | tooLong
  | advanceTooFar
  | noProgress
  | split (msg : String)
  | emptyTokensPanic
deriving DecidableEq, Repr

/-- Go: `(*Scanner).setErr`: an error is recorded unless another one than
`io.EOF` is already there. -/
def setErr (cur : Option ScanError) (e : ScanError) : Option ScanError :=
  if cur = none ∨ cur = some ScanError.eof then some e else cur

/-- Go: the fields of `bufio.Scanner` that `Scan` works on: `len(s.buf)`,
`s.start`, the bytes `s.buf[s.start:s.end]`, `s.err` and `s.empties`. -/
structure Scanner where
  bufLen : Nat
  start : Nat
  held : List Byte
  err : Option ScanError
  empties : Nat
deriving DecidableEq, Repr

/-- Go: `bufio.NewScanner(r)`: no buffer yet, nothing read, no error. -/
def NewScanner : Scanner := ⟨0, 0, [], none, 0⟩

/-- The first part of one round of the loop of `Scan`: what the call of the split
function leads to. -/
inductive SplitStep where
  /-- Go: `return false` with the given `s.err`. -/
  | stop (err : Option ScanError)
  /-- Go: `return true` with `s.token = tok`. -/
  | token (tok : Token) (s : Scanner)
  /-- Go: no token; `Scan` goes on to read. -/
  | more (s : Scanner)

/-- Go: the block `if s.end > s.start || s.err != nil { ... }` of `Scan`, with
`CodeWordSplitter` as the split function: the call on `s.buf[s.start:s.end]`
with `atEOF = (s.err != nil)`, then `s.advance(advance)`, then the token. -/
def Scanner.splitStep (s : Scanner) : SplitStep :=
  if !s.held.isEmpty || s.err.isSome then
    let r := CodeWordSplitter s.held s.err.isSome
    match r.err with
    | some msg => SplitStep.stop (setErr s.err (ScanError.split msg))
    | none =>
      if s.held.length < r.advance then
        SplitStep.stop (setErr s.err ScanError.advanceTooFar)
      else
        let s1 := { s with start := s.start + r.advance, held := s.held.drop r.advance }
        match r.token with
        | some tok =>
          if s.err.isNone || decide (0 < r.advance) then
            SplitStep.token tok { s1 with empties := 0 }
          else if s.empties + 1 > maxConsecutiveEmptyReads then
            SplitStep.stop (some ScanError.emptyTokensPanic)
          else
            SplitStep.token tok { s1 with empties := s.empties + 1 }
        | none => SplitStep.more s1
  else
    SplitStep.more s

/-- Go: the two blocks of `Scan` before the read: the shift of the held bytes to
the start of the buffer, and the doubling of a full buffer, which fails with
`ErrTooLong` once the buffer has `maxTokenSize` bytes. -/
def Scanner.grow (s : Scanner) : Sum (Option ScanError) Scanner :=
  let s1 : Scanner :=
    if decide (0 < s.start) &&
        (decide (s.start + s.held.length = s.bufLen) || decide (s.bufLen / 2 < s.start)) then
      { s with start := 0 }
    else s
  if s1.start + s1.held.length = s1.bufLen then
    if maxScanTokenSize ≤ s1.bufLen ∨ maxInt / 2 < s1.bufLen then
      Sum.inl (setErr s1.err ScanError.tooLong)
    else
      let newSize := if s1.bufLen * 2 = 0 then startBufSize else s1.bufLen * 2
      Sum.inr { s1 with bufLen := min newSize maxScanTokenSize, start := 0 }
  else
    Sum.inr s1

/-- Go: the read loop at the end of a round of `Scan`, on a reader over a finite
file: `rest` holds the bytes of the file not read yet, and `sizes` how many bytes
the reader is ready to return in each of its next calls (0 is an empty read;
past the list it returns all that is asked for).  A call of `Read` gets
`s.buf[s.end:len(s.buf)]` and returns at most as many bytes, and `(0, io.EOF)`
once the file is read.  More than `maxConsecutiveEmptyReads` empty reads in a
row give `io.ErrNoProgress`. -/
def readLoop (s : Scanner) (rest : List Byte) : List Nat → Nat → Scanner × List Byte × List Nat
  | [], _ =>
    if rest.isEmpty then
      ({ s with err := setErr s.err ScanError.eof }, [], [])
    else if (rest.take (s.bufLen - (s.start + s.held.length))).isEmpty then
      ({ s with err := setErr s.err ScanError.noProgress }, rest, [])
    else
      ({ s with held := s.held ++ rest.take (s.bufLen - (s.start + s.held.length)),
                empties := 0 },
        rest.drop (s.bufLen - (s.start + s.held.length)), [])
  | k :: later, loop =>
    if rest.isEmpty then
      ({ s with err := setErr s.err ScanError.eof }, [], k :: later)
    else if (rest.take (min k (s.bufLen - (s.start + s.held.length)))).isEmpty then
      if loop + 1 > maxConsecutiveEmptyReads then
        ({ s with err := setErr s.err ScanError.noProgress }, rest, later)
      else
        readLoop s rest later (loop + 1)
    else
      ({ s with held := s.held ++ rest.take (min k (s.bufLen - (s.start + s.held.length))),
                empties := 0 },
        rest.drop (min k (s.bufLen - (s.start + s.held.length))), later)

/-- Go: the loop `for scanner.Scan() {}` of `TokenizeFile` over a scanner made
by `bufio.NewScanner` with `CodeWordSplitter` as its split function.  Each round
is one round of the loop inside `Scan`: the split step; after a token `Scan`
returns true and is called again; without one, `Scan` returns false if an error
(or the end of the file) is recorded, and else grows the buffer and reads.  The
result is the tokens `Scan` returned true for and the value of `s.err` when it
returned false.  The first argument bounds the number of rounds: `none` means
the bound was reached before `Scan` returned false. -/
def scanRun : Nat → Scanner → List Byte → List Nat → Option (List Token × Option ScanError)
  | 0, _, _, _ => none
  | fuel + 1, s, rest, sizes =>
    match s.splitStep with
    | SplitStep.stop err => some ([], err)
    | SplitStep.token tok s1 =>
      (scanRun fuel s1 rest sizes).map (fun r => (tok :: r.1, r.2))
    | SplitStep.more s1 =>
      if s1.err.isSome then
        some ([], s1.err)
      else
        match s1.grow with
        | Sum.inl err => some ([], err)
        | Sum.inr s2 =>
          scanRun fuel (readLoop s2 rest sizes 0).1 (readLoop s2 rest sizes 0).2.1
            (readLoop s2 rest sizes 0).2.2

/-- A number of rounds that suffices for `scanRun`: every round ends the loop,
or consumes held bytes for a token, or reads, or records an error. -/
def scanRunFuel (s : Scanner) (rest : List Byte) : Nat :=
  s.held.length + 2 * rest.length + (if s.err.isSome then 1 else 2)

/-- Go: `scanner.Err()`: the recorded error, `io.EOF` counting as none. -/
def scannerErr (err : Option ScanError) : Option ScanError :=
  if err = some ScanError.eof then none else err

/-- The buffer of a scanner is in order: the held bytes end inside the buffer,
and the buffer is no longer than `maxScanTokenSize`. -/
def Scanner.wf (s : Scanner) : Prop :=
  s.start + s.held.length ≤ s.bufLen ∧ s.bufLen ≤ maxScanTokenSize

/-! ## What the tokenizer is specified to emit -/

/-- Every run of consecutive word bytes in `s` is shorter than `cap`. -/
def RunsBelow (cap : Nat) (s : List Byte) : Prop :=
  ∀ w, w <:+: s → (∀ b ∈ w, isSplitter b = false) → w.length < cap

/-- The maximal runs of word bytes of `s`: the non-empty pieces between
splitter bytes, left to right. -/
def wordRuns (s : List Byte) : List (List Byte) :=
  (s.splitOnP isSplitter).filter (fun run => decide (run ≠ []))

/-- The tokens of a stream as specified: the maximal runs of word bytes of
length at least 2, in order. -/
def expectedTokens (s : List Byte) : List Token :=
  (wordRuns s).filter (fun run => decide (2 ≤ run.length))

/-- The word bytes in the spec's words: an ASCII letter, an ASCII digit, or one
of `_ - . * &`. -/
def isAllowedByte (b : Byte) : Bool :=
  let c := Char.ofNat b.val
  c.isAlpha || c.isDigit || decide (c ∈ ['_', '-', '.', '*', '&'])

/-- The longest suffix of `data` made only of word bytes. -/
def wordSuffix (data : List Byte) : List Byte :=
  data.rtakeWhile (fun b => !isSplitter b)

/-! ## The tree walk -/

/-- Go: `map[Token][]Path`, the type of the values sent on the channels; `none`
is the nil map. -/
abbrev TokenMap := Option (List (Token × List Path))

/-- Go: `regexp.MatchString(pattern, s) (matched bool, err error)`, taken as a
parameter of the walk; `Except.error` is a pattern that does not compile. -/
abbrev MatchString := String → String → Except String Bool

/-- One step of `filepath.Clean` over the path elements, the kept elements being
held last first: a `..` element removes the element before it, unless there is
none or it is itself a kept `..`; then it is dropped in a rooted path and kept
in a relative one. -/
def cleanStep (rooted : Bool) (kept : List (List Char)) (elem : List Char) : List (List Char) :=
  if elem = ['.', '.'] then
    match kept with
    | top :: below => if top = ['.', '.'] then elem :: kept else below
    | [] => if rooted then [] else [elem]
  else
    elem :: kept

/-- Go: `filepath.Clean(path)` on a Unix system: empty and `.` elements are
dropped, `..` elements resolved, separators not doubled, no trailing separator
but in the root, and `.` for an empty result. -/
def cleanPath (path : String) : String :=
  if path = "" then "."
  else
    let rooted := path.toList.head? == some '/'
    let elems := (path.toList.splitOnP (fun c => c == '/')).filter
      (fun elem => decide (elem ≠ [] ∧ elem ≠ ['.']))
    let kept := elems.foldl (cleanStep rooted) []
    let body := String.mk (List.intercalate ['/'] kept.reverse)
    if rooted then "/" ++ body
    else if body = "" then "."
    else body

/-- Go: `filepath.Join(dir, name)` on a Unix system: the elements from the first
non-empty one on are joined by `/` and the result is cleaned; two empty elements
give the empty path. -/
def joinPath (dir : Path) (name : String) : Path :=
  if dir ≠ "" then cleanPath (dir ++ "/" ++ name)
  else if name ≠ "" then cleanPath name
  else ""

mutual
/-- What the operating system answers for a path: `os.Open` fails; `Stat` fails;
a regular file with the reads its reader delivers; or a directory with its
entries, whose `Readdirnames` may fail. -/
inductive FsNode where
  | openFails : FsNode
  | statFails : FsNode
  | file (reads : List (List Byte)) : FsNode
  | dir (readdirFails : Bool) (children : FsEntries) : FsNode
/-- The entries of a directory, by name. -/
inductive FsEntries where
  | nil : FsEntries
  | cons (name : String) (node : FsNode) (rest : FsEntries) : FsEntries
end

/-- Go: the names `file.Readdirnames(0)` returns. -/
def FsEntries.names : FsEntries → List String
  | FsEntries.nil => []
  | FsEntries.cons name _ rest => name :: rest.names

/-- The entries `before` followed by the entries `after`. -/
def FsEntries.append : FsEntries → FsEntries → FsEntries
  | FsEntries.nil, after => after
  | FsEntries.cons name node rest, after => FsEntries.cons name node (rest.append after)

/-- What one call of `TokenizeDir` does that can be seen from outside it. -/
inductive Event where
  /-- Go: `fmt.Printf` of an error, by its prefix. -/
  | print (msg : String)
  /-- Go: `file.Readdirnames(0)`. -/
  | readdir
  /-- Go: `go TokenizeDir(childrenChan, childPath, options)`. -/
  | spawn (childPath : Path)
  /-- Go: `<- childrenChan`; the received value is dropped. -/
  | recv
  /-- Go: `TokenizeFile(filePath, file)`, with the tokens its scanner steps through. -/
  | tokenizeFile (filePath : Path) (scanned : Option (List Token))
  /-- Go: `parentChan <- v`. -/
  | send (v : TokenMap)
deriving DecidableEq, Repr

/-- One call of `TokenizeDir`: its path and what it does, in program order. -/
structure Call where
  path : Path
  events : List Event
deriving DecidableEq, Repr

/-- The values a call sends on `parentChan`, in order. -/
def Call.sent (c : Call) : List TokenMap :=
  c.events.filterMap (fun ev => match ev with
    | Event.send v => some v
    | _ => none)

/-- The files a call runs `TokenizeFile` on. -/
def Call.tokenized (c : Call) : List Path :=
  c.events.filterMap (fun ev => match ev with
    | Event.tokenizeFile p _ => some p
    | _ => none)

/-- The child calls a call starts with `go TokenizeDir(...)`, by path. -/
def Call.spawned (c : Call) : List Path :=
  c.events.filterMap (fun ev => match ev with
    | Event.spawn p => some p
    | _ => none)

/-- The number of times a call receives from its children's channel. -/
def Call.received (c : Call) : Nat :=
  c.events.count Event.recv

/-- Whether a call lists its directory. -/
def Call.listed (c : Call) : Bool :=
  c.events.contains Event.readdir

/-- Go: `TokenizeFile(filePath, reader)`.  The reader delivers the bytes of
`reader` in reads of at most the sizes of its chunks; a scanner made by
`bufio.NewScanner` steps through its tokens.  The loop body is empty and the
function returns nothing (it does not look at `scanner.Err()`), so the list
below is what the scan passes over, not a value handed to the caller. -/
def TokenizeFile (_filePath : Path) (reader : List (List Byte)) : Option (List Token) :=
  (scanRun (scanRunFuel NewScanner reader.flatten) NewScanner reader.flatten
    (reader.map List.length)).map Prod.fst

mutual
/-- Go: `TokenizeDir(parentChan, filePath, options)`, on the file system node
found at `filePath`.  The result lists the calls made: this call first, then the
calls of the goroutines started for the children (and theirs), each with its own
events in program order.  How the goroutines interleave is not recorded: every
value they send is dropped by the receiving loop. -/
def TokenizeDir (matchString : MatchString) (options : TokenizeOptions) :
    Path → FsNode → List Call
  | filePath, FsNode.openFails =>
    [⟨filePath, [Event.print "Open ERROR", Event.send none]⟩]
  | filePath, FsNode.statFails =>
    [⟨filePath, [Event.print "Stat ERROR", Event.send none]⟩]
  | filePath, FsNode.dir readdirFails children =>
    if options.FolderExcludeRegex ≠ "" ∧
        (match matchString options.FolderExcludeRegex filePath with
          | Except.error _ => true
          | Except.ok matched => matched) = true then
      [⟨filePath, [Event.send none]⟩]
    else if readdirFails then
      [⟨filePath, [Event.readdir, Event.print "Readdirnames ERROR", Event.send none]⟩]
    else
      ⟨filePath, [Event.readdir]
          ++ children.names.map (fun childFilename => Event.spawn (joinPath filePath childFilename))
          ++ children.names.map (fun _ => Event.recv)
          ++ [Event.send none]⟩
        :: tokenizeChildren matchString options filePath children
  | filePath, FsNode.file reads =>
    if options.FileIncludeRegex ≠ "" then
      match matchString options.FileIncludeRegex filePath with
      | Except.error _ => [⟨filePath, [Event.print "Stat ERROR", Event.send none]⟩]
      | Except.ok false => [⟨filePath, [Event.send none]⟩]
      | Except.ok true =>
        [⟨filePath, [Event.tokenizeFile filePath (TokenizeFile filePath reads), Event.send none]⟩]
    else
      [⟨filePath, [Event.send none]⟩]
/-- The calls `go TokenizeDir(childrenChan, childPath, options)` started by the
loop over `childFilenames`. -/
def tokenizeChildren (matchString : MatchString) (options : TokenizeOptions) :
    Path → FsEntries → List Call
  | _, FsEntries.nil => []
  | filePath, FsEntries.cons childFilename node rest =>
    TokenizeDir matchString options (joinPath filePath childFilename) node
      ++ tokenizeChildren matchString options filePath rest
end

/-- The events of a directory call that lists its entries: one `spawn` per
name, then one `recv` per name, then the send. -/
def dirEvents (filePath : Path) (names : List String) : List Event :=
  [Event.readdir]
    ++ names.map (fun childFilename => Event.spawn (joinPath filePath childFilename))
    ++ names.map (fun _ => Event.recv)
    ++ [Event.send none]

/-- The condition under which the directory branch of `TokenizeDir` returns before
listing: the exclude pattern is not empty and `regexp.MatchString` reports a
match or an error. -/
def pruned (matchString : MatchString) (options : TokenizeOptions) (filePath : Path) : Prop :=
  options.FolderExcludeRegex ≠ "" ∧
    (match matchString options.FolderExcludeRegex filePath with
      | Except.error _ => true
      | Except.ok matched => matched) = true

/-! ## The loop of `CodeWordSplitter` -/

theorem codeWordSplitter_eq_splitFrom (data : List Byte) (atEOF : Bool) :
    CodeWordSplitter data atEOF = splitFrom data data 0 false 0 false atEOF := rfl

theorem splitFrom_nil (data : List Byte) (i : Nat) (f : Bool) (s : Nat) (sp e : Bool) :
    splitFrom data [] i f s sp e = splitFinish data e s sp := rfl

theorem splitFrom_cons_splitter_idle (data rest : List Byte) (b : Byte) (i s : Nat)
    (sp e : Bool) (hb : isSplitter b = true) :
    splitFrom data (b :: rest) i false s sp e = splitFrom data rest (i + 1) false s true e := by
  simp [splitFrom, splitLoop, hb]

theorem splitFrom_cons_word_idle (data rest : List Byte) (b : Byte) (i s : Nat)
    (sp e : Bool) (hb : isSplitter b = false) :
    splitFrom data (b :: rest) i false s sp e = splitFrom data rest (i + 1) true i false e := by
  simp [splitFrom, splitLoop, hb]

theorem splitFrom_cons_word_run (data rest : List Byte) (b : Byte) (i s : Nat)
    (sp e : Bool) (hb : isSplitter b = false) :
    splitFrom data (b :: rest) i true s sp e = splitFrom data rest (i + 1) true s false e := by
  simp [splitFrom, splitLoop, hb]

theorem splitFrom_cons_splitter_short (data rest : List Byte) (b : Byte) (i s : Nat)
    (sp e : Bool) (hb : isSplitter b = true) (hlen : i < s + 2) :
    splitFrom data (b :: rest) i true s sp e = splitFrom data rest (i + 1) false s true e := by
  have h : (i : Int) - (s : Int) < minTokenLen := by unfold minTokenLen; omega
  simp [splitFrom, splitLoop, hb, h]

theorem splitFrom_cons_splitter_long (data rest : List Byte) (b : Byte) (i s : Nat)
    (sp e : Bool) (hb : isSplitter b = true) (hlen : s + 2 ≤ i) :
    splitFrom data (b :: rest) i true s sp e = ⟨i, some (slice data s i), none⟩ := by
  have h : ¬ ((i : Int) - (s : Int) < minTokenLen) := by unfold minTokenLen; omega
  simp [splitFrom, splitLoop, hb, h]

/-- Inside a run, the loop walks over word bytes without changing its locals. -/
theorem splitFrom_word_run (data w rest : List Byte) (i s : Nat) (e : Bool)
    (hw : ∀ b ∈ w, isSplitter b = false) :
    splitFrom data (w ++ rest) i true s false e
      = splitFrom data rest (i + w.length) true s false e := by
  induction w generalizing i with
  | nil => simp
  | cons b w ih =>
    have hb : isSplitter b = false := hw b (List.mem_cons_self _ _)
    have hw' : ∀ c ∈ w, isSplitter c = false := fun c hc => hw c (List.mem_cons_of_mem _ hc)
    rw [List.cons_append, splitFrom_cons_word_run _ _ _ _ _ _ _ hb, ih _ hw']
    congr 1
    simp only [List.length_cons]
    omega

theorem slice_append_left (pre d : List Byte) (s i : Nat) :
    slice (pre ++ d) (pre.length + s) (pre.length + i) = slice d s i := by
  unfold slice
  rw [List.take_append, ← List.drop_drop, List.drop_left]

theorem splitFinish_append_left (pre d : List Byte) (e : Bool) (s : Nat) (sp : Bool) :
    splitFinish (pre ++ d) e (pre.length + s) sp
      = (splitFinish d e s sp).shift pre.length := by
  have hcond : ((((pre ++ d).length : Nat) : Int) - ((pre.length + s : Nat) : Int) ≥ minTokenLen)
      ↔ ((d.length : Int) - (s : Int) ≥ minTokenLen) := by
    rw [List.length_append]; push_cast; constructor <;> intro h <;> omega
  have hdrop : (pre ++ d).drop (pre.length + s) = d.drop s := by
    rw [← List.drop_drop, List.drop_left]
  unfold splitFinish SplitResult.shift
  by_cases h : (d.length : Int) - (s : Int) ≥ minTokenLen <;>
    cases e <;> cases sp <;> simp [hcond, h, hdrop]

/-- Running the loop on `pre ++ d` from index `pre.length + i` is running it on
`d` from index `i`, with every offset moved by `pre.length`. -/
theorem splitFrom_append_left (pre d rest : List Byte) (i : Nat) (f : Bool) (s : Nat)
    (sp e : Bool) :
    splitFrom (pre ++ d) rest (pre.length + i) f (pre.length + s) sp e
      = (splitFrom d rest i f s sp e).shift pre.length := by
  induction rest generalizing i f s sp with
  | nil => simp only [splitFrom_nil, splitFinish_append_left]
  | cons b rest ih =>
    cases hb : isSplitter b <;> cases f
    · rw [splitFrom_cons_word_idle _ _ _ _ _ _ _ hb, splitFrom_cons_word_idle _ _ _ _ _ _ _ hb,
        Nat.add_assoc, ih]
    · rw [splitFrom_cons_word_run _ _ _ _ _ _ _ hb, splitFrom_cons_word_run _ _ _ _ _ _ _ hb,
        Nat.add_assoc, ih]
    · rw [splitFrom_cons_splitter_idle _ _ _ _ _ _ _ hb,
        splitFrom_cons_splitter_idle _ _ _ _ _ _ _ hb, Nat.add_assoc, ih]
    · by_cases hlen : i < s + 2
      · rw [splitFrom_cons_splitter_short _ _ _ _ _ _ _ hb (by omega),
          splitFrom_cons_splitter_short _ _ _ _ _ _ _ hb hlen, Nat.add_assoc, ih]
      · rw [splitFrom_cons_splitter_long _ _ _ _ _ _ _ hb (by omega),
          splitFrom_cons_splitter_long _ _ _ _ _ _ _ hb (by omega), slice_append_left]
        rfl

/-- Outside a run and after a splitter, the stale value of `sliceStart` does
not matter. -/
theorem splitFrom_idle_sliceStart (data rest : List Byte) (i s s' : Nat) (e : Bool) :
    splitFrom data rest i false s true e = splitFrom data rest i false s' true e := by
  induction rest generalizing i with
  | nil => cases e <;> simp [splitFrom_nil, splitFinish]
  | cons b rest ih =>
    cases hb : isSplitter b
    · rw [splitFrom_cons_word_idle _ _ _ _ _ _ _ hb, splitFrom_cons_word_idle _ _ _ _ _ _ _ hb]
    · rw [splitFrom_cons_splitter_idle _ _ _ _ _ _ _ hb,
        splitFrom_cons_splitter_idle _ _ _ _ _ _ _ hb, ih]

/-- After a splitter the loop is in the state of a fresh call on the bytes
that remain. -/
theorem splitFrom_restart (pre rest : List Byte) (s : Nat) (e : Bool) :
    splitFrom (pre ++ rest) rest pre.length false s true e
      = (CodeWordSplitter rest e).shift pre.length := by
  rw [codeWordSplitter_eq_splitFrom, ← splitFrom_append_left]
  cases rest with
  | nil => cases e <;> simp [splitFrom_nil, splitFinish, minTokenLen]
  | cons b rest =>
    cases hb : isSplitter b
    · rw [splitFrom_cons_word_idle _ _ _ _ _ _ _ hb, splitFrom_cons_word_idle _ _ _ _ _ _ _ hb]
      rfl
    · rw [splitFrom_cons_splitter_idle _ _ _ _ _ _ _ hb,
        splitFrom_cons_splitter_idle _ _ _ _ _ _ _ hb]
      exact splitFrom_idle_sliceStart _ _ _ _ _ _

/-! ## `CodeWordSplitter` on a buffer, by its first run -/

/-- Every buffer is a run of word bytes, or a run of word bytes followed by a
splitter and the rest. -/
theorem word_run_decomp (l : List Byte) :
    (∀ b ∈ l, isSplitter b = false) ∨
      ∃ w sp rest, l = w ++ sp :: rest ∧ (∀ b ∈ w, isSplitter b = false) ∧
        isSplitter sp = true := by
  induction l with
  | nil => left; simp
  | cons a l ih =>
    cases ha : isSplitter a
    · rcases ih with h | ⟨w, sp, rest, rfl, hw, hsp⟩
      · left
        intro b hb
        rcases List.mem_cons.1 hb with rfl | hb
        · exact ha
        · exact h b hb
      · right
        refine ⟨a :: w, sp, rest, rfl, ?_, hsp⟩
        intro b hb
        rcases List.mem_cons.1 hb with rfl | hb
        · exact ha
        · exact hw b hb
    · right
      exact ⟨[], a, l, rfl, by simp, ha⟩

/-- A buffer of word bytes only: at the end of the stream it is the token if
it is long enough; before the end nothing is consumed. -/
theorem codeWordSplitter_all_word (w : List Byte) (e : Bool)
    (hw : ∀ b ∈ w, isSplitter b = false) :
    CodeWordSplitter w e =
      if e then (if 2 ≤ w.length then ⟨w.length, some w, none⟩ else ⟨w.length, none, none⟩)
      else ⟨0, none, none⟩ := by
  cases w with
  | nil => cases e <;> simp [CodeWordSplitter, splitLoop, splitFinish, minTokenLen]
  | cons b w =>
    have hb : isSplitter b = false := hw b (List.mem_cons_self _ _)
    have hw' : ∀ c ∈ w, isSplitter c = false := fun c hc => hw c (List.mem_cons_of_mem _ hc)
    have hrun := splitFrom_word_run (b :: w) w [] (0 + 1) 0 e hw'
    rw [List.append_nil] at hrun
    rw [codeWordSplitter_eq_splitFrom, splitFrom_cons_word_idle _ _ _ _ _ _ _ hb, hrun,
      splitFrom_nil]
    have hcond : minTokenLen ≤ (w.length : Int) + 1 ↔ 1 ≤ w.length := by
      unfold minTokenLen; constructor <;> intro h <;> omega
    unfold splitFinish
    by_cases hl : 1 ≤ w.length <;> cases e <;> simp [hcond, hl]

/-- A buffer whose first run of word bytes is closed by a splitter: a run of
length at least 2 is the token; a shorter one is skipped with its splitter, and
the result is that of the rest. -/
theorem codeWordSplitter_run_splitter (w rest : List Byte) (sp : Byte) (e : Bool)
    (hw : ∀ b ∈ w, isSplitter b = false) (hsp : isSplitter sp = true) :
    CodeWordSplitter (w ++ sp :: rest) e =
      if 2 ≤ w.length then ⟨w.length, some w, none⟩
      else (CodeWordSplitter rest e).shift (w.length + 1) := by
  cases w with
  | nil =>
    have h := splitFrom_restart [sp] rest 0 e
    rw [codeWordSplitter_eq_splitFrom, List.nil_append,
      splitFrom_cons_splitter_idle _ _ _ _ _ _ _ hsp]
    simpa using h
  | cons b w =>
    have hb : isSplitter b = false := hw b (List.mem_cons_self _ _)
    have hw' : ∀ c ∈ w, isSplitter c = false := fun c hc => hw c (List.mem_cons_of_mem _ hc)
    rw [codeWordSplitter_eq_splitFrom, List.cons_append,
      splitFrom_cons_word_idle _ _ _ _ _ _ _ hb, splitFrom_word_run _ _ _ _ _ _ hw']
    by_cases hlen : 2 ≤ (b :: w).length
    · rw [if_pos hlen, splitFrom_cons_splitter_long _ _ _ _ _ _ _ hsp
        (by simp only [List.length_cons] at hlen; omega)]
      have hs : slice (b :: (w ++ sp :: rest)) 0 (0 + 1 + w.length) = b :: w := by
        unfold slice
        rw [List.drop_zero, ← List.cons_append, List.take_left']
        simp only [List.length_cons]; omega
      rw [hs]
      congr 1
      simp only [List.length_cons]; omega
    · rw [if_neg hlen, splitFrom_cons_splitter_short _ _ _ _ _ _ _ hsp
        (by simp only [List.length_cons] at hlen; omega)]
      have h := splitFrom_restart (b :: w ++ [sp]) rest 0 e
      have hd : (b :: w ++ [sp]) ++ rest = b :: (w ++ sp :: rest) := by simp
      have hl : (b :: w ++ [sp]).length = 0 + 1 + w.length + 1 := by
        simp only [List.length_append, List.length_cons, List.length_nil]; omega
      have hl' : (b :: w).length + 1 = 0 + 1 + w.length + 1 := by
        simp only [List.length_cons]; omega
      rw [hd, hl] at h
      rw [h, hl']

/-! ## The specified token sequence, by the first run -/

/-- A non-empty stream of word bytes only is its own single maximal run. -/
theorem wordRuns_all_word (w : List Byte) (hw : ∀ b ∈ w, isSplitter b = false) :
    wordRuns w = if w = [] then [] else [w] := by
  have h : w.splitOnP isSplitter = [w] :=
    List.splitOnP_eq_single _ _ (fun x hx => by simp [hw x hx])
  unfold wordRuns
  rw [h]
  cases w with
  | nil => simp
  | cons b w => simp

/-- The first maximal run of a stream is its longest prefix of word bytes, if
that is not empty; the other runs are those of what follows the splitter that
closes it. -/
theorem wordRuns_run_splitter (w rest : List Byte) (sp : Byte)
    (hw : ∀ b ∈ w, isSplitter b = false) (hsp : isSplitter sp = true) :
    wordRuns (w ++ sp :: rest) = (if w = [] then [] else [w]) ++ wordRuns rest := by
  have h : (w ++ sp :: rest).splitOnP isSplitter = w :: rest.splitOnP isSplitter :=
    List.splitOnP_first _ _ (fun x hx => by simp [hw x hx]) sp hsp rest
  unfold wordRuns
  rw [h]
  cases w with
  | nil => simp
  | cons b w => simp

theorem expectedTokens_all_word (w : List Byte) (hw : ∀ b ∈ w, isSplitter b = false) :
    expectedTokens w = if 2 ≤ w.length then [w] else [] := by
  have h : w.splitOnP isSplitter = [w] :=
    List.splitOnP_eq_single _ _ (fun x hx => by simp [hw x hx])
  unfold expectedTokens wordRuns
  rw [h]
  cases w with
  | nil => simp
  | cons b w => by_cases hl : 1 ≤ w.length <;> simp [hl]

theorem expectedTokens_run_splitter (w rest : List Byte) (sp : Byte)
    (hw : ∀ b ∈ w, isSplitter b = false) (hsp : isSplitter sp = true) :
    expectedTokens (w ++ sp :: rest) = (if 2 ≤ w.length then [w] else []) ++ expectedTokens rest := by
  have h : (w ++ sp :: rest).splitOnP isSplitter = w :: rest.splitOnP isSplitter :=
    List.splitOnP_first _ _ (fun x hx => by simp [hw x hx]) sp hsp rest
  unfold expectedTokens wordRuns
  rw [h]
  cases w with
  | nil => simp
  | cons b w => by_cases hl : 1 ≤ w.length <;> simp [hl]

/-! ## The scanning loop -/

theorem scanTokens_succ (fuel : Nat) (buf : List Byte) (chunks : List (List Byte)) :
    scanTokens (fuel + 1) buf chunks =
      match (CodeWordSplitter buf chunks.isEmpty).token with
      | some tok =>
        (scanTokens fuel (buf.drop (CodeWordSplitter buf chunks.isEmpty).advance) chunks).map
          (fun toks => tok :: toks)
      | none =>
        match chunks with
        | [] => some []
        | chunk :: later =>
          scanTokens fuel (buf.drop (CodeWordSplitter buf chunks.isEmpty).advance ++ chunk) later :=
  rfl

theorem scanFuel_pos (buf : List Byte) (chunks : List (List Byte)) : 1 ≤ scanFuel buf chunks := by
  unfold scanFuel; omega

theorem scanTokens_nil_eof (fuel : Nat) : scanTokens (fuel + 1) [] [] = some [] := rfl

/-- A run of fewer than 2 word bytes and the splitter that closes it are passed
over inside a single call: the loop goes on as if they were not in the buffer. -/
theorem scanTokens_skip (fuel : Nat) (w rest : List Byte) (sp : Byte)
    (chunks : List (List Byte)) (hw : ∀ b ∈ w, isSplitter b = false)
    (hsp : isSplitter sp = true) (hlen : ¬ 2 ≤ w.length) :
    scanTokens fuel (w ++ sp :: rest) chunks = scanTokens fuel rest chunks := by
  cases fuel with
  | zero => rfl
  | succ fuel =>
    have hdrop : ∀ a, (w ++ sp :: rest).drop (w.length + 1 + a) = rest.drop a := by
      intro a
      have h : w ++ sp :: rest = (w ++ [sp]) ++ rest := by simp
      have hl : w.length + 1 = (w ++ [sp]).length := by simp
      rw [h, hl, ← List.drop_drop, List.drop_left]
    rw [scanTokens_succ, scanTokens_succ, codeWordSplitter_run_splitter _ _ _ _ hw hsp,
      if_neg hlen]
    simp only [SplitResult.shift, hdrop]

/-- The scanning loop ends within `scanFuel` calls and has then emitted the
specified tokens of the bytes in the buffer followed by the reads to come. -/
theorem scanTokens_eq_expected_aux (n : Nat) :
    ∀ (buf : List Byte) (chunks : List (List Byte)) (fuel : Nat),
      scanFuel buf chunks ≤ n → scanFuel buf chunks ≤ fuel →
      scanTokens fuel buf chunks = some (expectedTokens (buf ++ chunks.flatten)) := by
  induction n with
  | zero =>
    intro buf chunks fuel hn _
    have := scanFuel_pos buf chunks
    omega
  | succ n ih =>
    intro buf chunks fuel hn hf
    rcases word_run_decomp buf with hw | ⟨w, sp, rest, rfl, hw, hsp⟩
    · obtain ⟨fuel, rfl⟩ : ∃ k, fuel = k + 1 :=
        ⟨fuel - 1, by have := scanFuel_pos buf chunks; omega⟩
      rw [scanTokens_succ, codeWordSplitter_all_word _ _ hw]
      cases chunks with
      | nil =>
        simp only [List.isEmpty_nil, if_true, List.flatten_nil, List.append_nil]
        rw [expectedTokens_all_word _ hw]
        by_cases hl : 2 ≤ buf.length
        · obtain ⟨fuel, rfl⟩ : ∃ k, fuel = k + 1 :=
            ⟨fuel - 1, by unfold scanFuel at hf; simp at hf; omega⟩
          simp only [if_pos hl, List.drop_length, scanTokens_nil_eof, Option.map_some']
        · simp only [if_neg hl]
      | cons c cs =>
        have hfuel : scanFuel (buf ++ c) cs + 1 = scanFuel buf (c :: cs) := by
          unfold scanFuel
          simp only [List.length_append, List.map_cons, List.sum_cons]
          omega
        simp only [List.isEmpty_cons, Bool.false_eq_true, if_false, List.drop_zero,
          List.flatten_cons]
        rw [ih (buf ++ c) cs fuel (by omega) (by omega), List.append_assoc]
    · have hfuel : scanFuel (w ++ sp :: rest) chunks = w.length + 1 + scanFuel rest chunks := by
        unfold scanFuel
        simp only [List.length_append, List.length_cons]
        omega
      have hexp : expectedTokens ((w ++ sp :: rest) ++ chunks.flatten)
          = (if 2 ≤ w.length then [w] else []) ++ expectedTokens (rest ++ chunks.flatten) := by
        rw [List.append_assoc, List.cons_append, expectedTokens_run_splitter _ _ _ hw hsp]
      by_cases hl : 2 ≤ w.length
      · obtain ⟨fuel, rfl⟩ : ∃ k, fuel = k + 1 := ⟨fuel - 1, by omega⟩
        have hrest : scanFuel (sp :: rest) chunks = 1 + scanFuel rest chunks := by
          unfold scanFuel
          simp only [List.length_cons]
          omega
        have hexp' : expectedTokens ((sp :: rest) ++ chunks.flatten)
            = expectedTokens (rest ++ chunks.flatten) := by
          have h := expectedTokens_run_splitter [] (rest ++ chunks.flatten) sp (by simp) hsp
          simpa using h
        rw [scanTokens_succ, codeWordSplitter_run_splitter _ _ _ _ hw hsp, if_pos hl]
        simp only [List.drop_left]
        rw [ih (sp :: rest) chunks fuel (by omega) (by omega), hexp, hexp', if_pos hl]
        rfl
      · rw [scanTokens_skip _ _ _ _ _ hw hsp hl, ih rest chunks fuel (by omega) (by omega),
          hexp, if_neg hl, List.nil_append]

theorem scanTokens_eq_expected (buf : List Byte) (chunks : List (List Byte)) (fuel : Nat)
    (hf : scanFuel buf chunks ≤ fuel) :
    scanTokens fuel buf chunks = some (expectedTokens (buf ++ chunks.flatten)) :=
  scanTokens_eq_expected_aux _ buf chunks fuel (Nat.le_refl _) hf

/-! ## Consequences for a single call -/

/-- Induction over a buffer by its first run of word bytes. -/
theorem first_run_induction {motive : List Byte → Prop}
    (all_word : ∀ w, (∀ b ∈ w, isSplitter b = false) → motive w)
    (step : ∀ w sp rest, (∀ b ∈ w, isSplitter b = false) → isSplitter sp = true →
      motive rest → motive (w ++ sp :: rest))
    (l : List Byte) : motive l := by
  have key : ∀ n (l : List Byte), l.length ≤ n → motive l := by
    intro n
    induction n with
    | zero =>
      intro l hl
      exact all_word l (by
        have : l = [] := List.length_eq_zero.1 (by omega)
        subst this; simp)
    | succ n ih =>
      intro l hl
      rcases word_run_decomp l with hw | ⟨w, sp, rest, rfl, hw, hsp⟩
      · exact all_word l hw
      · refine step w sp rest hw hsp (ih rest ?_)
        simp only [List.length_append, List.length_cons] at hl
        omega
  exact key l.length l (Nat.le_refl _)

set_option maxRecDepth 100000 in
/-- The byte classifier agrees with the spec's list of allowed characters. -/
theorem isSplitter_eq_not_allowed : ∀ b : Byte, isSplitter b = !isAllowedByte b := by
  decide

set_option maxRecDepth 100000 in
/-- Bytes outside ASCII and white space are splitters. -/
theorem isSplitter_of_high_or_space : ∀ b : Byte,
    (128 ≤ b.val → isSplitter b = true) ∧
      ((Char.ofNat b.val).isWhitespace = true → isSplitter b = true) := by
  decide

/-- What a returned token is: a run of at least 2 word bytes, ending where the
consumed bytes end. -/
theorem codeWordSplitter_token (data : List Byte) :
    ∀ (e : Bool) (tok : List Byte), (CodeWordSplitter data e).token = some tok →
      2 ≤ tok.length ∧ (∀ b ∈ tok, isSplitter b = false) ∧
      tok.length ≤ (CodeWordSplitter data e).advance ∧
      (CodeWordSplitter data e).advance ≤ data.length := by
  induction data using first_run_induction with
  | all_word w hw =>
    intro e tok h
    rw [codeWordSplitter_all_word _ _ hw] at h ⊢
    cases e
    · simp at h
    · by_cases hl : 2 ≤ w.length
      · simp only [if_true, if_pos hl, Option.some.injEq] at h ⊢
        subst h
        exact ⟨hl, hw, Nat.le_refl _, Nat.le_refl _⟩
      · simp [hl] at h
  | step w sp rest hw hsp ih =>
    intro e tok h
    rw [codeWordSplitter_run_splitter _ _ _ _ hw hsp] at h ⊢
    by_cases hl : 2 ≤ w.length
    · simp only [if_pos hl, Option.some.injEq] at h ⊢
      subst h
      refine ⟨hl, hw, Nat.le_refl _, ?_⟩
      simp only [List.length_append, List.length_cons]
      omega
    · simp only [if_neg hl, SplitResult.shift] at h ⊢
      obtain ⟨h1, h2, h3, h4⟩ := ih e tok h
      refine ⟨h1, h2, by omega, ?_⟩
      simp only [List.length_append, List.length_cons]
      omega

/-- At the end of the stream a call that returns no token consumes everything. -/
theorem codeWordSplitter_eof_none (data : List Byte) :
    (CodeWordSplitter data true).token = none →
      (CodeWordSplitter data true).advance = data.length := by
  induction data using first_run_induction with
  | all_word w hw =>
    rw [codeWordSplitter_all_word _ _ hw]
    by_cases hl : 2 ≤ w.length <;> simp [hl]
  | step w sp rest hw hsp ih =>
    rw [codeWordSplitter_run_splitter _ _ _ _ hw hsp]
    by_cases hl : 2 ≤ w.length
    · simp [hl]
    · simp only [if_neg hl, SplitResult.shift, List.length_append, List.length_cons]
      intro h
      rw [ih h]
      omega

/-- Before the end of the stream, the bytes a call without token leaves in the
buffer are word bytes only. -/
theorem codeWordSplitter_chunk_kept (data : List Byte) :
    (CodeWordSplitter data false).token = none →
      ∀ b ∈ data.drop (CodeWordSplitter data false).advance, isSplitter b = false := by
  induction data using first_run_induction with
  | all_word w hw =>
    rw [codeWordSplitter_all_word _ _ hw]
    intro _ b hb
    exact hw b (by simpa using hb)
  | step w sp rest hw hsp ih =>
    rw [codeWordSplitter_run_splitter _ _ _ _ hw hsp]
    by_cases hl : 2 ≤ w.length
    · simp [hl]
    · simp only [if_neg hl, SplitResult.shift]
      intro h
      have hdrop : (w ++ sp :: rest).drop (w.length + 1 + (CodeWordSplitter rest false).advance)
          = rest.drop (CodeWordSplitter rest false).advance := by
        have h1 : w ++ sp :: rest = (w ++ [sp]) ++ rest := by simp
        have h2 : w.length + 1 = (w ++ [sp]).length := by simp
        rw [h1, h2, ← List.drop_drop, List.drop_left]
      rw [hdrop]
      exact ih h

/-- The specified token sequence has at most `(len + 1) / 3` tokens. -/
theorem expectedTokens_length_le (s : List Byte) :
    3 * (expectedTokens s).length ≤ s.length + 1 := by
  induction s using first_run_induction with
  | all_word w hw =>
    rw [expectedTokens_all_word _ hw]
    by_cases hl : 2 ≤ w.length
    · simp only [if_pos hl, List.length_singleton]; omega
    · simp only [if_neg hl, List.length_nil]; omega
  | step w sp rest hw hsp ih =>
    rw [expectedTokens_run_splitter _ _ _ hw hsp]
    by_cases hl : 2 ≤ w.length
    · simp only [if_pos hl, List.length_append, List.length_cons, List.length_nil]; omega
    · simp only [if_neg hl, List.length_append, List.length_nil, List.length_cons]; omega

/-! ## The tokenizer's contract -/

/-- The driving protocol with an unbounded buffer: however the stream `s` is cut
into reads, the loop ends and has then emitted exactly the maximal runs of word
bytes of `s` whose length is at least 2, in left-to-right order, each as the
unchanged bytes of the run.  The scanner of package bufio bounds its buffer: for
it see `scanRun_emits` and `scanRun_tooLong`. -/
theorem scan_emits_long_word_runs (s : List Byte) (chunks : List (List Byte)) (fuel : Nat)
    (hs : chunks.flatten = s) (hfuel : scanFuel [] chunks ≤ fuel) :
    scanTokens fuel [] chunks
      = some ((wordRuns s).filter (fun run => decide (2 ≤ run.length))) := by
  rw [scanTokens_eq_expected [] chunks fuel hfuel, List.nil_append, hs]
  rfl

theorem scan_emits_long_word_runs_witness :
    scanTokens 30 [] [asciiBytes "a fu", asciiBytes "nc x main() \x7b\x7d\n go", asciiBytes " go"]
      = some [asciiBytes "func", asciiBytes "main", asciiBytes "go", asciiBytes "go"] :=
  scan_emits_long_word_runs (asciiBytes "a func x main() \x7b\x7d\n go go") _ 30 (by decide)
    (by decide)

/-- C2: a token returned by `CodeWordSplitter`, for either value of `atEOF`,
has length at least 2 and consists of allowed characters only: ASCII letters,
ASCII digits and `_ - . * &`. -/
theorem token_long_and_allowed (data : List Byte) (atEOF : Bool) (tok : List Byte)
    (h : (CodeWordSplitter data atEOF).token = some tok) :
    2 ≤ tok.length ∧ ∀ b ∈ tok, isAllowedByte b = true := by
  obtain ⟨h1, h2, _, _⟩ := codeWordSplitter_token data atEOF tok h
  refine ⟨h1, fun b hb => ?_⟩
  have hb2 := h2 b hb
  rw [isSplitter_eq_not_allowed] at hb2
  simpa using hb2

theorem token_long_and_allowed_witness :
    2 ≤ (asciiBytes "a_b").length ∧ ∀ b ∈ asciiBytes "a_b", isAllowedByte b = true :=
  token_long_and_allowed (asciiBytes "x;a_b;") false (asciiBytes "a_b") (by decide)

/-- C3: chunk-boundary independence.  Cutting the stream `s` at any point `k`,
driving `CodeWordSplitter` on `s[0:k]` before the end of the stream and then on
the kept bytes followed by `s[k:]` at the end of the stream, emits the same
tokens as driving it on the whole of `s` at the end of the stream; both loops
end. -/
theorem chunk_boundary_independence (s : List Byte) (k fuel₁ fuel₂ : Nat)
    (h₁ : s.length + 2 ≤ fuel₁) (h₂ : s.length + 1 ≤ fuel₂) :
    scanTokens fuel₁ (s.take k) [s.drop k] = scanTokens fuel₂ s [] ∧
      (scanTokens fuel₂ s []).isSome = true := by
  have hlen : (s.take k).length + (s.drop k).length = s.length := by
    rw [← List.length_append, List.take_append_drop]
  have hf₁ : scanFuel (s.take k) [s.drop k] ≤ fuel₁ := by
    unfold scanFuel
    simp only [List.map_cons, List.map_nil, List.sum_cons, List.sum_nil]
    omega
  have hf₂ : scanFuel s [] ≤ fuel₂ := by
    unfold scanFuel
    simp only [List.map_nil, List.sum_nil]
    omega
  rw [scanTokens_eq_expected _ _ _ hf₁, scanTokens_eq_expected _ _ _ hf₂]
  simp

theorem chunk_boundary_independence_witness :
    scanTokens 9 ((asciiBytes "ab cde").take 4) [(asciiBytes "ab cde").drop 4]
        = scanTokens 7 (asciiBytes "ab cde") [] ∧
      (scanTokens 7 (asciiBytes "ab cde") []).isSome = true :=
  chunk_boundary_independence (asciiBytes "ab cde") 4 9 7 (by decide) (by decide)

/-- C4: a byte is a word byte (`isSplitter` false) exactly when it is an ASCII
letter, an ASCII digit or one of `_ - . * &`; every other byte is a splitter,
among them every byte from 128 up and the white space bytes. -/
theorem isSplitter_classifies (b : Byte) :
    (isSplitter b = false ↔ isAllowedByte b = true) ∧
      (isSplitter b = true ↔ isAllowedByte b = false) ∧
      (128 ≤ b.val → isSplitter b = true) ∧
      ((Char.ofNat b.val).isWhitespace = true → isSplitter b = true) := by
  refine ⟨?_, ?_, (isSplitter_of_high_or_space b).1, (isSplitter_of_high_or_space b).2⟩
  · rw [isSplitter_eq_not_allowed]; cases isAllowedByte b <;> simp
  · rw [isSplitter_eq_not_allowed]; cases isAllowedByte b <;> simp

theorem isSplitter_classifies_witness :
    isSplitter (200 : Byte) = true ∧ isSplitter (32 : Byte) = true :=
  ⟨(isSplitter_classifies 200).2.2.1 (by decide), (isSplitter_classifies 32).2.2.2 (by decide)⟩

/-- C5: the scanning loop over `CodeWordSplitter` at the end of the stream ends
for every finite `s` (within `len(s) + 1` calls) and emits at most
`(len(s) + 1) / 3` tokens; every call that returns a token consumes at least 2
bytes and a call that returns no token consumes everything. -/
theorem scan_terminates_with_bound (s : List Byte) (fuel : Nat) (hfuel : s.length + 1 ≤ fuel) :
    (∃ toks, scanTokens fuel s [] = some toks ∧ toks.length ≤ (s.length + 1) / 3) ∧
      (∀ data tok, (CodeWordSplitter data true).token = some tok →
        2 ≤ (CodeWordSplitter data true).advance) ∧
      (∀ data, (CodeWordSplitter data true).token = none →
        (CodeWordSplitter data true).advance = data.length) := by
  refine ⟨⟨expectedTokens s, ?_, ?_⟩, ?_, codeWordSplitter_eof_none⟩
  · have hf : scanFuel s [] ≤ fuel := by
      unfold scanFuel
      simp only [List.map_nil, List.sum_nil]
      omega
    rw [scanTokens_eq_expected _ _ _ hf]
    simp
  · have := expectedTokens_length_le s
    omega
  · intro data tok h
    obtain ⟨h1, _, h3, _⟩ := codeWordSplitter_token data true tok h
    omega

theorem scan_terminates_with_bound_witness :
    ∃ toks, scanTokens 9 (asciiBytes "ab cd ef") [] = some toks ∧
      toks.length ≤ ((asciiBytes "ab cd ef").length + 1) / 3 :=
  (scan_terminates_with_bound (asciiBytes "ab cd ef") 9 (by decide)).1

/-- C6, as stated, fails: the non-empty chunk `ab` passed before the end of the
stream yields no token and no consumed byte. -/
theorem chunk_progress_counterexample :
    asciiBytes "ab" ≠ [] ∧
      (CodeWordSplitter (asciiBytes "ab") false).token = none ∧
      (CodeWordSplitter (asciiBytes "ab") false).advance = 0 := by
  decide

/-- C6, amended: before the end of the stream `CodeWordSplitter` returns a token
or consumes at least one byte exactly when the chunk contains a splitter byte (a
chunk of word bytes only is kept whole), and whenever it returns no token the
bytes kept for the next call are word bytes only, the unfinished run at the end
of the chunk. -/
theorem chunk_progress_iff_splitter (data : List Byte) :
    (((CodeWordSplitter data false).token ≠ none ∨ 0 < (CodeWordSplitter data false).advance)
        ↔ ∃ b ∈ data, isSplitter b = true) ∧
      ((CodeWordSplitter data false).token = none →
        ∀ b ∈ data.drop (CodeWordSplitter data false).advance, isSplitter b = false) := by
  refine ⟨?_, codeWordSplitter_chunk_kept data⟩
  rcases word_run_decomp data with hw | ⟨w, sp, rest, rfl, hw, hsp⟩
  · rw [codeWordSplitter_all_word _ _ hw]
    constructor
    · intro h; simp at h
    · rintro ⟨b, hb, hsp⟩
      rw [hw b hb] at hsp
      cases hsp
  · rw [codeWordSplitter_run_splitter _ _ _ _ hw hsp]
    constructor
    · intro _
      exact ⟨sp, by simp, hsp⟩
    · intro _
      by_cases hl : 2 ≤ w.length
      · left; simp [hl]
      · right
        simp only [if_neg hl, SplitResult.shift]
        omega

theorem chunk_progress_iff_splitter_witness :
    ∀ b ∈ (asciiBytes "a b").drop (CodeWordSplitter (asciiBytes "a b") false).advance,
      isSplitter b = false :=
  (chunk_progress_iff_splitter (asciiBytes "a b")).2 (by decide)

/-! ## More on a single call of `CodeWordSplitter` -/

theorem drop_run_splitter (w rest : List Byte) (sp : Byte) (a : Nat) :
    (w ++ sp :: rest).drop (w.length + 1 + a) = rest.drop a := by
  have h1 : w ++ sp :: rest = (w ++ [sp]) ++ rest := by simp
  have h2 : w.length + 1 = (w ++ [sp]).length := by simp
  rw [h1, h2, ← List.drop_drop, List.drop_left]

theorem take_run_splitter (w rest : List Byte) (sp : Byte) (a : Nat) :
    (w ++ sp :: rest).take (w.length + 1 + a) = w ++ sp :: rest.take a := by
  have h1 : w ++ sp :: rest = (w ++ [sp]) ++ rest := by simp
  have h2 : w.length + 1 = (w ++ [sp]).length := by simp
  rw [h1, h2, List.take_append]
  simp

theorem slice_run_splitter (w rest : List Byte) (sp : Byte) (lo hi : Nat) :
    slice (w ++ sp :: rest) (w.length + 1 + lo) (w.length + 1 + hi) = slice rest lo hi := by
  have h1 : w ++ sp :: rest = (w ++ [sp]) ++ rest := by simp
  have h2 : w.length + 1 = (w ++ [sp]).length := by simp
  rw [h1, h2, slice_append_left]

/-- The word suffix of a buffer does not reach back over a splitter. -/
theorem wordSuffix_run_splitter (w rest : List Byte) (sp : Byte)
    (hsp : isSplitter sp = true) :
    wordSuffix (w ++ sp :: rest) = wordSuffix rest := by
  have key : ∀ (a b : List Byte),
      (a ++ sp :: b).takeWhile (fun c => !isSplitter c) = a.takeWhile (fun c => !isSplitter c) := by
    intro a b
    induction a with
    | nil => simp [List.takeWhile, hsp]
    | cons x a ih =>
      cases hx : isSplitter x <;> simp [List.takeWhile, hx, ih]
  unfold wordSuffix List.rtakeWhile
  rw [List.reverse_append, List.reverse_cons, List.append_assoc, List.singleton_append, key]

theorem wordSuffix_all_word (w : List Byte) (hw : ∀ b ∈ w, isSplitter b = false) :
    wordSuffix w = w := by
  unfold wordSuffix
  rw [List.rtakeWhile_eq_self_iff]
  intro x hx
  simp [hw x hx]

/-- The function `wordSuffix` is what its name says: a suffix, of word bytes
only, and at least as long as every suffix of word bytes. -/
theorem wordSuffix_spec (data : List Byte) :
    wordSuffix data <:+ data ∧ (∀ b ∈ wordSuffix data, isSplitter b = false) ∧
      ∀ t, t <:+ data → (∀ b ∈ t, isSplitter b = false) → t.length ≤ (wordSuffix data).length := by
  refine ⟨List.rtakeWhile_suffix _ _, ?_, ?_⟩
  · intro b hb
    have := List.mem_rtakeWhile_imp hb
    simpa using this
  · induction data using first_run_induction with
    | all_word w hw =>
      intro t ht _
      rw [wordSuffix_all_word _ hw]
      exact ht.length_le
    | step w sp rest hw hsp ih =>
      intro t ht hword
      rw [wordSuffix_run_splitter _ _ _ hsp]
      by_cases hle : t.length ≤ rest.length
      · have hsuf : t <:+ rest := by
          have h1 : rest <:+ w ++ sp :: rest :=
            ⟨w ++ [sp], by simp⟩
          exact List.suffix_of_suffix_length_le ht h1 hle
        exact ih t hsuf hword
      · exfalso
        have h1 : sp :: rest <:+ w ++ sp :: rest := ⟨w, rfl⟩
        have h2 : sp :: rest <:+ t :=
          List.suffix_of_suffix_length_le h1 ht (by simp only [List.length_cons]; omega)
        have := hword sp (h2.subset (List.mem_cons_self _ _))
        rw [hsp] at this
        cases this

/-- The split function contract, by induction over the buffer: no error, no
more consumed than there is, and a token is the bytes just before the point
consumed up to. -/
theorem codeWordSplitter_contract (data : List Byte) :
    ∀ e : Bool, (CodeWordSplitter data e).err = none ∧
      (CodeWordSplitter data e).advance ≤ data.length ∧
      ∀ tok, (CodeWordSplitter data e).token = some tok →
        slice data ((CodeWordSplitter data e).advance - tok.length)
          (CodeWordSplitter data e).advance = tok := by
  induction data using first_run_induction with
  | all_word w hw =>
    intro e
    rw [codeWordSplitter_all_word _ _ hw]
    cases e
    · simp
    · by_cases hl : 2 ≤ w.length
      · simp only [if_true, if_pos hl, Option.some.injEq, Nat.le_refl, true_and]
        intro tok h
        subst h
        simp [slice]
      · simp [hl]
  | step w sp rest hw hsp ih =>
    intro e
    have htok := codeWordSplitter_token rest e
    rw [codeWordSplitter_run_splitter _ _ _ _ hw hsp]
    by_cases hl : 2 ≤ w.length
    · simp only [if_pos hl, Option.some.injEq, true_and]
      refine ⟨by simp only [List.length_append, List.length_cons]; omega, ?_⟩
      intro tok h
      subst h
      simp [slice]
    · obtain ⟨h1, h2, h3⟩ := ih e
      simp only [if_neg hl, SplitResult.shift]
      refine ⟨h1, by simp only [List.length_append, List.length_cons]; omega, ?_⟩
      intro tok h
      obtain ⟨_, _, hle, _⟩ := htok tok h
      have hidx : w.length + 1 + (CodeWordSplitter rest e).advance - tok.length
          = w.length + 1 + ((CodeWordSplitter rest e).advance - tok.length) := by omega
      rw [hidx, slice_run_splitter]
      exact h3 tok h

/-- A token returned before the end of the stream is returned, with the same
consumed count, whatever follows the buffer. -/
theorem codeWordSplitter_extend (data : List Byte) :
    ∀ (ext : List Byte) (e : Bool), (CodeWordSplitter data false).token ≠ none →
      CodeWordSplitter (data ++ ext) e = CodeWordSplitter data false := by
  induction data using first_run_induction with
  | all_word w hw =>
    intro ext e h
    rw [codeWordSplitter_all_word _ _ hw] at h
    simp at h
  | step w sp rest hw hsp ih =>
    intro ext e h
    rw [codeWordSplitter_run_splitter _ _ _ _ hw hsp] at h ⊢
    rw [List.append_assoc, List.cons_append, codeWordSplitter_run_splitter _ _ _ _ hw hsp]
    by_cases hl : 2 ≤ w.length
    · simp only [if_pos hl]
    · simp only [if_neg hl, SplitResult.shift] at h ⊢
      rw [ih ext e h]

/-- Before the end of the stream a call without token consumes everything but
the word suffix of the buffer, and what it consumes holds no token. -/
theorem codeWordSplitter_chunk_none (data : List Byte) :
    (CodeWordSplitter data false).token = none →
      (CodeWordSplitter data false).advance + (wordSuffix data).length = data.length ∧
      expectedTokens (data.take (CodeWordSplitter data false).advance) = [] := by
  induction data using first_run_induction with
  | all_word w hw =>
    intro _
    rw [codeWordSplitter_all_word _ _ hw, wordSuffix_all_word _ hw]
    simp [expectedTokens, wordRuns]
  | step w sp rest hw hsp ih =>
    rw [codeWordSplitter_run_splitter _ _ _ _ hw hsp, wordSuffix_run_splitter _ _ _ hsp]
    by_cases hl : 2 ≤ w.length
    · simp [hl]
    · simp only [if_neg hl, SplitResult.shift]
      intro h
      obtain ⟨h1, h2⟩ := ih h
      rw [take_run_splitter, expectedTokens_run_splitter _ _ _ hw hsp, if_neg hl, h2]
      refine ⟨?_, rfl⟩
      simp only [List.length_append, List.length_cons]
      omega

/-! ## The tree walk as coded -/

/-- C7: on the file `a.go` with content `func main() {}\n`, matched by the include
pattern, `TokenizeDir` runs `TokenizeFile`, whose scan steps through `func` and
`main`, and then sends the nil map to its parent: no token reaches the index. -/
theorem tokenizeDir_file_sends_nil (matchString : MatchString) (folderExclude : String)
    (hmatch : matchString "\\.go$" "a.go" = Except.ok true) :
    TokenizeDir matchString ⟨folderExclude, "\\.go$"⟩ "a.go"
        (FsNode.file [asciiBytes "func main() \x7b\x7d\n"])
      = [⟨"a.go", [Event.tokenizeFile "a.go" (some [asciiBytes "func", asciiBytes "main"]),
          Event.send none]⟩] := by
  have hne : ("\\.go$" : String) ≠ "" := by decide
  have htok : TokenizeFile "a.go" [asciiBytes "func main() \x7b\x7d\n"]
      = some [asciiBytes "func", asciiBytes "main"] := by decide
  simp only [TokenizeDir, hne, hmatch, htok, ne_eq, not_false_eq_true, if_true]

theorem tokenizeDir_file_sends_nil_witness :
    TokenizeDir (fun _ _ => Except.ok true) ⟨"", "\\.go$"⟩ "a.go"
        (FsNode.file [asciiBytes "func main() \x7b\x7d\n"])
      = [⟨"a.go", [Event.tokenizeFile "a.go" (some [asciiBytes "func", asciiBytes "main"]),
          Event.send none]⟩] :=
  tokenizeDir_file_sends_nil (fun _ _ => Except.ok true) "" rfl

/-- C8: on the tree `x/a.txt` = `foo bar`, `y/a.txt` = `foo baz`, with every
file included and no folder excluded, each directory call lists its entries,
starts one call per entry, receives and drops their values, and sends the nil
map: the files are scanned, but nothing is merged and nothing reaches the root's
result. -/
theorem tokenizeDir_dir_sends_nil (matchString : MatchString)
    (hx : matchString ".*" "x/a.txt" = Except.ok true)
    (hy : matchString ".*" "y/a.txt" = Except.ok true) :
    TokenizeDir matchString ⟨"", ".*"⟩ "."
        (FsNode.dir false
          (FsEntries.cons "x"
            (FsNode.dir false
              (FsEntries.cons "a.txt" (FsNode.file [asciiBytes "foo bar"]) FsEntries.nil))
            (FsEntries.cons "y"
              (FsNode.dir false
                (FsEntries.cons "a.txt" (FsNode.file [asciiBytes "foo baz"]) FsEntries.nil))
              FsEntries.nil)))
      = [⟨".", [Event.readdir, Event.spawn "x", Event.spawn "y", Event.recv, Event.recv,
            Event.send none]⟩,
          ⟨"x", [Event.readdir, Event.spawn "x/a.txt", Event.recv, Event.send none]⟩,
          ⟨"x/a.txt", [Event.tokenizeFile "x/a.txt" (some [asciiBytes "foo", asciiBytes "bar"]),
            Event.send none]⟩,
          ⟨"y", [Event.readdir, Event.spawn "y/a.txt", Event.recv, Event.send none]⟩,
          ⟨"y/a.txt", [Event.tokenizeFile "y/a.txt" (some [asciiBytes "foo", asciiBytes "baz"]),
            Event.send none]⟩] := by
  have hne : (".*" : String) ≠ "" := by decide
  have hjx : joinPath "." "x" = "x" := by decide
  have hjy : joinPath "." "y" = "y" := by decide
  have hjxa : joinPath "x" "a.txt" = "x/a.txt" := by decide
  have hjya : joinPath "y" "a.txt" = "y/a.txt" := by decide
  have htx : TokenizeFile "x/a.txt" [asciiBytes "foo bar"]
      = some [asciiBytes "foo", asciiBytes "bar"] := by decide
  have hty : TokenizeFile "y/a.txt" [asciiBytes "foo baz"]
      = some [asciiBytes "foo", asciiBytes "baz"] := by decide
  simp [TokenizeDir, tokenizeChildren, FsEntries.names, hne, hjx, hjy, hjxa, hjya, hx, hy,
    htx, hty]

theorem tokenizeDir_dir_sends_nil_witness :
    ((TokenizeDir (fun _ _ => Except.ok true) ⟨"", ".*"⟩ "."
        (FsNode.dir false
          (FsEntries.cons "x"
            (FsNode.dir false
              (FsEntries.cons "a.txt" (FsNode.file [asciiBytes "foo bar"]) FsEntries.nil))
            (FsEntries.cons "y"
              (FsNode.dir false
                (FsEntries.cons "a.txt" (FsNode.file [asciiBytes "foo baz"]) FsEntries.nil))
              FsEntries.nil)))).map Call.sent)
      = [[none], [none], [none], [none], [none]] := by
  rw [tokenizeDir_dir_sends_nil (fun _ _ => Except.ok true) rfl rfl]
  decide

/-- C9: on every control path (open failure, stat failure, pruned directory,
listing failure, completed directory, skipped file, tokenized file) the call of
`TokenizeDir` on `filePath` sends exactly one value to its parent, and that
value is the nil map, never a map. -/
theorem tokenizeDir_sends_nil_map (matchString : MatchString) (options : TokenizeOptions)
    (filePath : Path) (node : FsNode) :
    ∃ call later, TokenizeDir matchString options filePath node = call :: later ∧
      call.path = filePath ∧ call.sent = [none] := by
  cases node with
  | openFails =>
    simp only [TokenizeDir]
    exact ⟨_, _, rfl, rfl, rfl⟩
  | statFails =>
    simp only [TokenizeDir]
    exact ⟨_, _, rfl, rfl, rfl⟩
  | file reads =>
    simp only [TokenizeDir]
    split
    · split
      · exact ⟨_, _, rfl, rfl, rfl⟩
      · exact ⟨_, _, rfl, rfl, rfl⟩
      · exact ⟨_, _, rfl, rfl, rfl⟩
    · exact ⟨_, _, rfl, rfl, rfl⟩
  | dir readdirFails children =>
    simp only [TokenizeDir]
    split
    · exact ⟨_, _, rfl, rfl, rfl⟩
    · split
      · exact ⟨_, _, rfl, rfl, rfl⟩
      · refine ⟨_, _, rfl, rfl, ?_⟩
        simp [Call.sent, List.filterMap_append, List.filterMap_map]

/-- C10: with an empty include pattern the call of `TokenizeDir` on a regular
file does nothing but send the nil map: `TokenizeFile` is not run on it. -/
theorem tokenizeDir_empty_include_skips_file (matchString : MatchString)
    (folderExclude : String) (filePath : Path) (reads : List (List Byte)) :
    TokenizeDir matchString ⟨folderExclude, ""⟩ filePath (FsNode.file reads)
        = [⟨filePath, [Event.send none]⟩] ∧
      ((TokenizeDir matchString ⟨folderExclude, ""⟩ filePath (FsNode.file reads)).map
        Call.tokenized) = [[]] := by
  have h : TokenizeDir matchString ⟨folderExclude, ""⟩ filePath (FsNode.file reads)
      = [⟨filePath, [Event.send none]⟩] := by
    simp only [TokenizeDir, ne_eq, not_true_eq_false, if_false]
  rw [h]
  exact ⟨rfl, rfl⟩

/-! ## The split function contract -/

/-- C15: end-of-chunk handling.  When `CodeWordSplitter(data, false)` returns no
token, `advance` is `len(data)` minus the length of the longest suffix of word
bytes, so the bytes kept are exactly that suffix (the unfinished run, even of
length 1); a chunk that ends in a splitter is consumed whole; and the consumed
prefix `data[0:advance]` holds no maximal word run of length at least 2. -/
theorem end_of_chunk_keeps_word_suffix (data : List Byte)
    (h : (CodeWordSplitter data false).token = none) :
    (CodeWordSplitter data false).advance = data.length - (wordSuffix data).length ∧
      data.drop (CodeWordSplitter data false).advance = wordSuffix data ∧
      (∀ init sp, data = init ++ [sp] → isSplitter sp = true →
        (CodeWordSplitter data false).advance = data.length) ∧
      (wordRuns (data.take (CodeWordSplitter data false).advance)).filter
        (fun run => decide (2 ≤ run.length)) = [] := by
  obtain ⟨h1, h2⟩ := codeWordSplitter_chunk_none data h
  have hadv : (CodeWordSplitter data false).advance = data.length - (wordSuffix data).length := by
    omega
  refine ⟨hadv, ?_, ?_, h2⟩
  · rw [hadv]
    exact (List.suffix_iff_eq_drop.1 (wordSuffix_spec data).1).symm
  · intro init sp hd hsp
    have hs : wordSuffix data = [] := by
      rw [hd, wordSuffix_run_splitter init [] sp hsp]
      rfl
    rw [hs] at h1
    simpa using h1

theorem end_of_chunk_keeps_word_suffix_witness :
    (CodeWordSplitter (asciiBytes "a; c") false).advance
        = (asciiBytes "a; c").length - (wordSuffix (asciiBytes "a; c")).length ∧
      (asciiBytes "a; c").drop (CodeWordSplitter (asciiBytes "a; c") false).advance
        = asciiBytes "c" :=
  ⟨(end_of_chunk_keeps_word_suffix (asciiBytes "a; c") (by decide)).1,
    (end_of_chunk_keeps_word_suffix (asciiBytes "a; c") (by decide)).2.1⟩

/-- C16: `CodeWordSplitter` meets the `bufio.SplitFunc` contract on every input:
the error is nil and `0 <= advance <= len(data)`; a returned token comes with
`advance >= 2` and is exactly `data[advance - len(token) : advance]`; and at the
end of the stream a call that returns no token consumes all of `data`. -/
theorem split_func_contract (data : List Byte) (atEOF : Bool) :
    (CodeWordSplitter data atEOF).err = none ∧
      0 ≤ (CodeWordSplitter data atEOF).advance ∧
      (CodeWordSplitter data atEOF).advance ≤ data.length ∧
      (∀ tok, (CodeWordSplitter data atEOF).token = some tok →
        2 ≤ (CodeWordSplitter data atEOF).advance ∧
        tok = slice data ((CodeWordSplitter data atEOF).advance - tok.length)
          (CodeWordSplitter data atEOF).advance) ∧
      (atEOF = true → (CodeWordSplitter data atEOF).token = none →
        (CodeWordSplitter data atEOF).advance = data.length) := by
  obtain ⟨h1, h2, h3⟩ := codeWordSplitter_contract data atEOF
  refine ⟨h1, Nat.zero_le _, h2, ?_, ?_⟩
  · intro tok h
    obtain ⟨hlen, _, hle, _⟩ := codeWordSplitter_token data atEOF tok h
    exact ⟨by omega, (h3 tok h).symm⟩
  · intro he h
    subst he
    exact codeWordSplitter_eof_none data h

theorem split_func_contract_witness :
    2 ≤ (CodeWordSplitter (asciiBytes "; ab cd") true).advance ∧
      asciiBytes "ab" = slice (asciiBytes "; ab cd")
        ((CodeWordSplitter (asciiBytes "; ab cd") true).advance - (asciiBytes "ab").length)
        (CodeWordSplitter (asciiBytes "; ab cd") true).advance :=
  (split_func_contract (asciiBytes "; ab cd") true).2.2.2.1 (asciiBytes "ab") (by decide)

/-- C17: prefix stability.  If `CodeWordSplitter(data, false)` returns a token
`t` with `advance = a`, then on `data` followed by any bytes, with either value
of `atEOF`, it returns the same token and the same `advance`; in particular
`CodeWordSplitter(data, true)` returns the same result. -/
theorem prefix_stability (data ext : List Byte) (atEOF : Bool) (t : List Byte)
    (h : (CodeWordSplitter data false).token = some t) :
    (CodeWordSplitter (data ++ ext) atEOF).token = some t ∧
      (CodeWordSplitter (data ++ ext) atEOF).advance = (CodeWordSplitter data false).advance ∧
      CodeWordSplitter (data ++ ext) atEOF = CodeWordSplitter data false ∧
      CodeWordSplitter data true = CodeWordSplitter data false := by
  have hne : (CodeWordSplitter data false).token ≠ none := by rw [h]; simp
  have h1 := codeWordSplitter_extend data ext atEOF hne
  have h2 := codeWordSplitter_extend data [] true hne
  rw [List.append_nil] at h2
  rw [h1]
  exact ⟨h, rfl, rfl, h2⟩

theorem prefix_stability_witness :
    (CodeWordSplitter (asciiBytes "x ab;" ++ asciiBytes "cd ef") true).token
        = some (asciiBytes "ab") ∧
      (CodeWordSplitter (asciiBytes "x ab;" ++ asciiBytes "cd ef") true).advance
        = (CodeWordSplitter (asciiBytes "x ab;") false).advance :=
  ⟨(prefix_stability (asciiBytes "x ab;") (asciiBytes "cd ef") true (asciiBytes "ab")
      (by decide)).1,
    (prefix_stability (asciiBytes "x ab;") (asciiBytes "cd ef") true (asciiBytes "ab")
      (by decide)).2.1⟩

/-! ## The calls of a walk -/

theorem tokenizeDir_openFails (matchString : MatchString) (options : TokenizeOptions)
    (filePath : Path) :
    TokenizeDir matchString options filePath FsNode.openFails
      = [⟨filePath, [Event.print "Open ERROR", Event.send none]⟩] := by
  simp only [TokenizeDir]

theorem tokenizeDir_statFails (matchString : MatchString) (options : TokenizeOptions)
    (filePath : Path) :
    TokenizeDir matchString options filePath FsNode.statFails
      = [⟨filePath, [Event.print "Stat ERROR", Event.send none]⟩] := by
  simp only [TokenizeDir]

theorem tokenizeDir_dir_pruned (matchString : MatchString) (options : TokenizeOptions)
    (filePath : Path) (readdirFails : Bool) (children : FsEntries)
    (h : pruned matchString options filePath) :
    TokenizeDir matchString options filePath (FsNode.dir readdirFails children)
      = [⟨filePath, [Event.send none]⟩] := by
  unfold pruned at h
  simp only [TokenizeDir]
  rw [if_pos h]

theorem tokenizeDir_dir_unlistable (matchString : MatchString) (options : TokenizeOptions)
    (filePath : Path) (children : FsEntries) (h : ¬ pruned matchString options filePath) :
    TokenizeDir matchString options filePath (FsNode.dir true children)
      = [⟨filePath, [Event.readdir, Event.print "Readdirnames ERROR", Event.send none]⟩] := by
  unfold pruned at h
  simp only [TokenizeDir]
  rw [if_neg h]
  simp

theorem tokenizeDir_dir_listed (matchString : MatchString) (options : TokenizeOptions)
    (filePath : Path) (children : FsEntries) (h : ¬ pruned matchString options filePath) :
    TokenizeDir matchString options filePath (FsNode.dir false children)
      = ⟨filePath, dirEvents filePath children.names⟩
          :: tokenizeChildren matchString options filePath children := by
  unfold pruned at h
  simp only [TokenizeDir]
  rw [if_neg h]
  simp [dirEvents]

theorem tokenizeDir_file_matched (matchString : MatchString) (options : TokenizeOptions)
    (filePath : Path) (reads : List (List Byte)) (hne : options.FileIncludeRegex ≠ "")
    (h : matchString options.FileIncludeRegex filePath = Except.ok true) :
    TokenizeDir matchString options filePath (FsNode.file reads)
      = [⟨filePath, [Event.tokenizeFile filePath (TokenizeFile filePath reads),
          Event.send none]⟩] := by
  simp only [TokenizeDir, if_pos hne, h]

theorem tokenizeDir_file_unmatched (matchString : MatchString) (options : TokenizeOptions)
    (filePath : Path) (reads : List (List Byte))
    (h : matchString options.FileIncludeRegex filePath = Except.ok false) :
    TokenizeDir matchString options filePath (FsNode.file reads)
      = [⟨filePath, [Event.send none]⟩] := by
  simp only [TokenizeDir, h]
  split <;> rfl

theorem tokenizeDir_file_bad_pattern (matchString : MatchString) (options : TokenizeOptions)
    (filePath : Path) (reads : List (List Byte)) (msg : String)
    (hne : options.FileIncludeRegex ≠ "")
    (h : matchString options.FileIncludeRegex filePath = Except.error msg) :
    TokenizeDir matchString options filePath (FsNode.file reads)
      = [⟨filePath, [Event.print "Stat ERROR", Event.send none]⟩] := by
  simp only [TokenizeDir, if_pos hne, h]

theorem tokenizeDir_file_empty_pattern (matchString : MatchString) (options : TokenizeOptions)
    (filePath : Path) (reads : List (List Byte)) (he : options.FileIncludeRegex = "") :
    TokenizeDir matchString options filePath (FsNode.file reads)
      = [⟨filePath, [Event.send none]⟩] := by
  simp only [TokenizeDir, he, ne_eq, not_true_eq_false, if_false]

theorem tokenizeChildren_nil (matchString : MatchString) (options : TokenizeOptions)
    (filePath : Path) :
    tokenizeChildren matchString options filePath FsEntries.nil = [] := by
  simp only [tokenizeChildren]

theorem tokenizeChildren_cons (matchString : MatchString) (options : TokenizeOptions)
    (filePath : Path) (name : String) (node : FsNode) (rest : FsEntries) :
    tokenizeChildren matchString options filePath (FsEntries.cons name node rest)
      = TokenizeDir matchString options (joinPath filePath name) node
          ++ tokenizeChildren matchString options filePath rest := by
  simp only [tokenizeChildren]

/-- The calls started for a list of entries are those for its front part
followed by those for its back part. -/
theorem tokenizeChildren_append (matchString : MatchString) (options : TokenizeOptions)
    (filePath : Path) : ∀ (before after : FsEntries),
    tokenizeChildren matchString options filePath (before.append after)
      = tokenizeChildren matchString options filePath before
          ++ tokenizeChildren matchString options filePath after
  | FsEntries.nil, after => by
    simp only [FsEntries.append, tokenizeChildren_nil, List.nil_append]
  | FsEntries.cons name node rest, after => by
    simp only [FsEntries.append, tokenizeChildren_cons, List.append_assoc,
      tokenizeChildren_append matchString options filePath rest after]

/-- The seven control paths of one call: six give a single call with a fixed
event list, the seventh a listing directory followed by its children's calls. -/
theorem tokenizeDir_paths (matchString : MatchString) (options : TokenizeOptions)
    (filePath : Path) (node : FsNode) :
    (∃ events, TokenizeDir matchString options filePath node = [⟨filePath, events⟩] ∧
      (events = [Event.print "Open ERROR", Event.send none] ∨
        events = [Event.print "Stat ERROR", Event.send none] ∨
        events = [Event.send none] ∨
        events = [Event.readdir, Event.print "Readdirnames ERROR", Event.send none] ∨
        ∃ scanned, events = [Event.tokenizeFile filePath scanned, Event.send none] ∧
          options.FileIncludeRegex ≠ "" ∧
          matchString options.FileIncludeRegex filePath = Except.ok true)) ∨
    (∃ children, node = FsNode.dir false children ∧
      TokenizeDir matchString options filePath node
        = ⟨filePath, dirEvents filePath children.names⟩
            :: tokenizeChildren matchString options filePath children) := by
  cases node with
  | openFails => exact Or.inl ⟨_, tokenizeDir_openFails _ _ _, Or.inl rfl⟩
  | statFails => exact Or.inl ⟨_, tokenizeDir_statFails _ _ _, Or.inr (Or.inl rfl)⟩
  | file reads =>
    left
    by_cases hne : options.FileIncludeRegex = ""
    · exact ⟨_, tokenizeDir_file_empty_pattern _ _ _ _ hne, Or.inr (Or.inr (Or.inl rfl))⟩
    · cases hm : matchString options.FileIncludeRegex filePath with
      | error msg =>
        exact ⟨_, tokenizeDir_file_bad_pattern _ _ _ _ msg hne hm, Or.inr (Or.inl rfl)⟩
      | ok matched =>
        cases matched
        · exact ⟨_, tokenizeDir_file_unmatched _ _ _ _ hm, Or.inr (Or.inr (Or.inl rfl))⟩
        · exact ⟨_, tokenizeDir_file_matched _ _ _ _ hne hm,
            Or.inr (Or.inr (Or.inr (Or.inr ⟨_, rfl, hne, rfl⟩)))⟩
  | dir readdirFails children =>
    by_cases hp : pruned matchString options filePath
    · exact Or.inl ⟨_, tokenizeDir_dir_pruned _ _ _ _ _ hp, Or.inr (Or.inr (Or.inl rfl))⟩
    · cases readdirFails
      · exact Or.inr ⟨children, rfl, tokenizeDir_dir_listed _ _ _ _ hp⟩
      · exact Or.inl ⟨_, tokenizeDir_dir_unlistable _ _ _ _ hp,
          Or.inr (Or.inr (Or.inr (Or.inl rfl)))⟩

mutual
/-- A property that holds of the first call of every `TokenizeDir` holds of
every call of a walk. -/
theorem walk_forall (matchString : MatchString) (options : TokenizeOptions)
    (P : Call → Prop)
    (h : ∀ p node c later, TokenizeDir matchString options p node = c :: later → P c) :
    ∀ (filePath : Path) (node : FsNode),
      ∀ c ∈ TokenizeDir matchString options filePath node, P c
  | filePath, FsNode.openFails => by
    intro c hc
    rw [tokenizeDir_openFails] at hc
    rw [List.mem_singleton.1 hc]
    exact h filePath FsNode.openFails _ [] (tokenizeDir_openFails _ _ _)
  | filePath, FsNode.statFails => by
    intro c hc
    rw [tokenizeDir_statFails] at hc
    rw [List.mem_singleton.1 hc]
    exact h filePath FsNode.statFails _ [] (tokenizeDir_statFails _ _ _)
  | filePath, FsNode.file reads => by
    intro c hc
    rcases tokenizeDir_paths matchString options filePath (FsNode.file reads) with
      ⟨events, heq, _⟩ | ⟨children, hnode, _⟩
    · rw [heq] at hc
      rw [List.mem_singleton.1 hc]
      exact h filePath _ _ [] heq
    · cases hnode
  | filePath, FsNode.dir readdirFails children => by
    intro c hc
    rcases tokenizeDir_paths matchString options filePath (FsNode.dir readdirFails children) with
      ⟨events, heq, _⟩ | ⟨children', hnode, heq⟩
    · rw [heq] at hc
      rw [List.mem_singleton.1 hc]
      exact h filePath _ _ [] heq
    · injection hnode with _ hch
      subst hch
      rw [heq] at hc
      rcases List.mem_cons.1 hc with hc | hc
      · rw [hc]
        exact h filePath _ _ _ heq
      · exact walk_forall_children matchString options P h filePath children c hc
/-- The same for the calls started for the entries of a directory. -/
theorem walk_forall_children (matchString : MatchString) (options : TokenizeOptions)
    (P : Call → Prop)
    (h : ∀ p node c later, TokenizeDir matchString options p node = c :: later → P c) :
    ∀ (filePath : Path) (entries : FsEntries),
      ∀ c ∈ tokenizeChildren matchString options filePath entries, P c
  | filePath, FsEntries.nil => by
    intro c hc
    rw [tokenizeChildren_nil] at hc
    cases hc
  | filePath, FsEntries.cons name node rest => by
    intro c hc
    rw [tokenizeChildren_cons] at hc
    rcases List.mem_append.1 hc with hc | hc
    · exact walk_forall matchString options P h (joinPath filePath name) node c hc
    · exact walk_forall_children matchString options P h filePath rest c hc
end

theorem dirEvents_spawned (filePath : Path) (names : List String) :
    (⟨filePath, dirEvents filePath names⟩ : Call).spawned
      = names.map (fun childFilename => joinPath filePath childFilename) := by
  have h1 : ∀ l : List String, (l.map (fun n => Event.spawn (joinPath filePath n))).filterMap
      (fun ev => match ev with
        | Event.spawn p => some p
        | _ => none) = l.map (fun n => joinPath filePath n) := by
    intro l
    induction l with
    | nil => rfl
    | cons a l ih => simp only [List.map_cons, List.filterMap_cons, ih]
  have h2 : ∀ l : List String, (l.map (fun _ => Event.recv)).filterMap
      (fun ev => match ev with
        | Event.spawn p => some p
        | _ => none) = ([] : List Path) := by
    intro l
    induction l with
    | nil => rfl
    | cons a l ih => simp only [List.map_cons, List.filterMap_cons, ih]
  simp only [Call.spawned, dirEvents, List.filterMap_append, h1, h2, List.filterMap_cons,
    List.filterMap_nil, List.nil_append, List.append_nil]

theorem dirEvents_received (filePath : Path) (names : List String) :
    (⟨filePath, dirEvents filePath names⟩ : Call).received = names.length := by
  have h1 : ∀ l : List String,
      (l.map (fun n => Event.spawn (joinPath filePath n))).count Event.recv = 0 := by
    intro l
    induction l with
    | nil => rfl
    | cons a l ih =>
      rw [List.map_cons, List.count_cons_of_ne (by simp), ih]
  have h2 : ∀ l : List String, (l.map (fun _ => Event.recv)).count Event.recv = l.length := by
    intro l
    induction l with
    | nil => rfl
    | cons a l ih => rw [List.map_cons, List.count_cons_self, ih, List.length_cons]
  simp only [Call.received, dirEvents, List.count_append, h1, h2]
  simp

theorem dirEvents_sent (filePath : Path) (names : List String) :
    (⟨filePath, dirEvents filePath names⟩ : Call).sent = [none] := by
  simp [Call.sent, dirEvents, List.filterMap_append, List.filterMap_map]

theorem dirEvents_tokenized (filePath : Path) (names : List String) :
    (⟨filePath, dirEvents filePath names⟩ : Call).tokenized = [] := by
  simp [Call.tokenized, dirEvents, List.filterMap_append, List.filterMap_map]

theorem dirEvents_getLast (filePath : Path) (names : List String) :
    (dirEvents filePath names).getLast? = some (Event.send none) := by
  unfold dirEvents
  exact List.getLast?_concat _

theorem dirEvents_listed (filePath : Path) (names : List String) :
    (⟨filePath, dirEvents filePath names⟩ : Call).listed = true := by
  simp [Call.listed, dirEvents]

/-- What the first call of a `TokenizeDir` does, whatever the node: one send, as
its last event, and as many receives as children started; a file it tokenizes is
its own path, matched by the include pattern. -/
theorem tokenizeDir_first_call (matchString : MatchString) (options : TokenizeOptions)
    (filePath : Path) (node : FsNode) (c : Call) (later : List Call)
    (h : TokenizeDir matchString options filePath node = c :: later) :
    c.sent = [none] ∧ c.events.getLast? = some (Event.send none) ∧
      c.received = c.spawned.length ∧
      ∀ q ∈ c.tokenized, options.FileIncludeRegex ≠ "" ∧
        matchString options.FileIncludeRegex q = Except.ok true := by
  rcases tokenizeDir_paths matchString options filePath node with
    ⟨events, heq, hcases⟩ | ⟨children, _, heq⟩
  · rw [heq] at h
    injection h with h _
    subst h
    rcases hcases with rfl | rfl | rfl | rfl | ⟨scanned, rfl, hne, hm⟩
    · exact ⟨rfl, rfl, rfl, by intro q hq; cases hq⟩
    · exact ⟨rfl, rfl, rfl, by intro q hq; cases hq⟩
    · exact ⟨rfl, rfl, rfl, by intro q hq; cases hq⟩
    · exact ⟨rfl, rfl, rfl, by intro q hq; cases hq⟩
    · refine ⟨rfl, rfl, rfl, ?_⟩
      intro q hq
      have hq' : q = filePath := by simpa [Call.tokenized] using hq
      subst hq'
      exact ⟨hne, hm⟩
  · rw [heq] at h
    injection h with h _
    subst h
    refine ⟨dirEvents_sent _ _, dirEvents_getLast _ _, ?_, ?_⟩
    · rw [dirEvents_received, dirEvents_spawned, List.length_map]
    · rw [dirEvents_tokenized]
      intro q hq
      cases hq

mutual
/-- Every call of a walk but the first was started by a `spawn` of a call of
the walk: the calls number one more than the spawns. -/
theorem walk_count (matchString : MatchString) (options : TokenizeOptions) :
    ∀ (filePath : Path) (node : FsNode),
      (TokenizeDir matchString options filePath node).length
        = 1 + ((TokenizeDir matchString options filePath node).map
            (fun c => c.spawned.length)).sum
  | filePath, FsNode.openFails => by
    rw [tokenizeDir_openFails]
    rfl
  | filePath, FsNode.statFails => by
    rw [tokenizeDir_statFails]
    rfl
  | filePath, FsNode.file reads => by
    rcases tokenizeDir_paths matchString options filePath (FsNode.file reads) with
      ⟨events, heq, hcases⟩ | ⟨children, hnode, _⟩
    · rw [heq]
      rcases hcases with rfl | rfl | rfl | rfl | ⟨scanned, rfl, _, _⟩ <;> rfl
    · cases hnode
  | filePath, FsNode.dir readdirFails children => by
    by_cases hp : pruned matchString options filePath
    · rw [tokenizeDir_dir_pruned _ _ _ _ _ hp]
      rfl
    · cases readdirFails
      · have hch := walk_count_children matchString options filePath children
        rw [tokenizeDir_dir_listed _ _ _ _ hp]
        simp only [List.length_cons, List.map_cons, List.sum_cons, dirEvents_spawned,
          List.length_map]
        omega
      · rw [tokenizeDir_dir_unlistable _ _ _ _ hp]
        rfl
/-- The calls started for the entries of a directory number the entries plus
the spawns of those calls. -/
theorem walk_count_children (matchString : MatchString) (options : TokenizeOptions) :
    ∀ (filePath : Path) (entries : FsEntries),
      (tokenizeChildren matchString options filePath entries).length
        = entries.names.length + ((tokenizeChildren matchString options filePath entries).map
            (fun c => c.spawned.length)).sum
  | filePath, FsEntries.nil => by
    rw [tokenizeChildren_nil]
    rfl
  | filePath, FsEntries.cons name node rest => by
    have h1 := walk_count matchString options (joinPath filePath name) node
    have h2 := walk_count_children matchString options filePath rest
    rw [tokenizeChildren_cons]
    simp only [List.length_append, List.map_append, List.sum_append, FsEntries.names,
      List.length_cons]
    omega
end

/-! ## The tree walk: filters, failures, sends and receives -/

/-- C11: in a walk `TokenizeFile` is run only on files whose path the include
pattern matches; a file the pattern does not match is not read (no
`TokenizeFile`) and contributes nothing (its call only sends the nil map); and
the calls made for the other entries of its directory are what they are
whatever this file is. -/
theorem tokenizes_only_matching_files (matchString : MatchString) (options : TokenizeOptions)
    (filePath : Path) (node : FsNode) :
    (∀ c ∈ TokenizeDir matchString options filePath node, ∀ q ∈ c.tokenized,
        options.FileIncludeRegex ≠ "" ∧
          matchString options.FileIncludeRegex q = Except.ok true) ∧
      (∀ reads, matchString options.FileIncludeRegex filePath ≠ Except.ok true →
        ∃ c, TokenizeDir matchString options filePath (FsNode.file reads) = [c] ∧
          c.tokenized = [] ∧ c.sent = [none]) ∧
      (∀ before name after,
        tokenizeChildren matchString options filePath
            (before.append (FsEntries.cons name node after))
          = tokenizeChildren matchString options filePath before
              ++ TokenizeDir matchString options (joinPath filePath name) node
              ++ tokenizeChildren matchString options filePath after) := by
  refine ⟨?_, ?_, ?_⟩
  · exact walk_forall matchString options
      (fun c => ∀ q ∈ c.tokenized, options.FileIncludeRegex ≠ "" ∧
        matchString options.FileIncludeRegex q = Except.ok true)
      (fun p n c later h => (tokenizeDir_first_call matchString options p n c later h).2.2.2)
      filePath node
  · intro reads hno
    rcases tokenizeDir_paths matchString options filePath (FsNode.file reads) with
      ⟨events, heq, hcases⟩ | ⟨children, hnode, _⟩
    · refine ⟨_, heq, ?_⟩
      rcases hcases with rfl | rfl | rfl | rfl | ⟨scanned, rfl, _, hm⟩
      · exact ⟨rfl, rfl⟩
      · exact ⟨rfl, rfl⟩
      · exact ⟨rfl, rfl⟩
      · exact ⟨rfl, rfl⟩
      · exact absurd hm hno
    · cases hnode
  · intro before name after
    rw [tokenizeChildren_append, tokenizeChildren_cons, List.append_assoc]

theorem tokenizes_only_matching_files_witness :
    ∃ c, TokenizeDir (fun _ _ => Except.ok false) ⟨"", "\\.go$"⟩ "a.txt"
        (FsNode.file [asciiBytes "foo bar"]) = [c] ∧ c.tokenized = [] ∧ c.sent = [none] :=
  (tokenizes_only_matching_files (fun _ _ => Except.ok false) ⟨"", "\\.go$"⟩ "a.txt"
    (FsNode.file [asciiBytes "foo bar"])).2.1 [asciiBytes "foo bar"]
    (fun h => Bool.noConfusion (Except.ok.inj h))

/-- C12: a directory whose path the non-empty exclude pattern matches is pruned:
its call only sends its one (nil, so empty) result, without listing and without
starting a call for any child, so the walk holds no call beneath it; with an
empty exclude pattern a directory is never pruned: it is listed and, when the
listing succeeds, one call per entry is started. -/
theorem excluded_folder_is_pruned (matchString : MatchString) (options : TokenizeOptions)
    (filePath : Path) (readdirFails : Bool) (children : FsEntries) :
    (options.FolderExcludeRegex ≠ "" →
        matchString options.FolderExcludeRegex filePath = Except.ok true →
        TokenizeDir matchString options filePath (FsNode.dir readdirFails children)
          = [⟨filePath, [Event.send none]⟩]) ∧
      (options.FolderExcludeRegex = "" →
        ∃ call later,
          TokenizeDir matchString options filePath (FsNode.dir readdirFails children)
            = call :: later ∧
          call.listed = true ∧
          (readdirFails = false →
            call.spawned = children.names.map (fun name => joinPath filePath name) ∧
            later = tokenizeChildren matchString options filePath children)) := by
  constructor
  · intro hne hm
    exact tokenizeDir_dir_pruned _ _ _ _ _ ⟨hne, by rw [hm]⟩
  · intro he
    have hp : ¬ pruned matchString options filePath := fun hp => hp.1 he
    cases readdirFails
    · exact ⟨_, _, tokenizeDir_dir_listed _ _ _ _ hp, dirEvents_listed _ _,
        fun _ => ⟨dirEvents_spawned _ _, rfl⟩⟩
    · refine ⟨_, _, tokenizeDir_dir_unlistable _ _ _ _ hp, rfl, ?_⟩
      intro h
      cases h

theorem excluded_folder_is_pruned_witness :
    TokenizeDir (fun _ _ => Except.ok true) ⟨"node_modules", "\\.js$"⟩ "node_modules"
        (FsNode.dir false
          (FsEntries.cons "index.js" (FsNode.file [asciiBytes "var x"]) FsEntries.nil))
      = [⟨"node_modules", [Event.send none]⟩] :=
  (excluded_folder_is_pruned (fun _ _ => Except.ok true) ⟨"node_modules", "\\.js$"⟩
    "node_modules" false
    (FsEntries.cons "index.js" (FsNode.file [asciiBytes "var x"]) FsEntries.nil)).1
    (by decide) rfl

/-- C13, as stated, fails: with an include pattern that does not compile and no
exclude pattern, the walk of a directory holding `a.txt` lists the directory and
starts the call for `a.txt`, which prints the error and sends the nil map. -/
theorem bad_include_pattern_counterexample :
    TokenizeDir (fun _ _ => Except.error "missing closing )") ⟨"", "("⟩ "."
        (FsNode.dir false
          (FsEntries.cons "a.txt" (FsNode.file [asciiBytes "foo bar"]) FsEntries.nil))
      = [⟨".", [Event.readdir, Event.spawn "a.txt", Event.recv, Event.send none]⟩,
          ⟨"a.txt", [Event.print "Stat ERROR", Event.send none]⟩] := by
  decide

/-- C13, amended: a pattern that does not compile is met at each path.  With
such an exclude pattern a directory call lists nothing, starts no child and only
sends the nil map; with such an include pattern a file call prints the error and
sends the nil map without tokenizing; and a directory that the exclude pattern
does not prune is listed, with one call started per entry, whatever the include
pattern is. -/
theorem bad_pattern_is_per_path (matchString : MatchString) (options : TokenizeOptions)
    (filePath : Path) (msg : String) :
    (∀ readdirFails children, options.FolderExcludeRegex ≠ "" →
        matchString options.FolderExcludeRegex filePath = Except.error msg →
        TokenizeDir matchString options filePath (FsNode.dir readdirFails children)
          = [⟨filePath, [Event.send none]⟩]) ∧
      (∀ reads, options.FileIncludeRegex ≠ "" →
        matchString options.FileIncludeRegex filePath = Except.error msg →
        TokenizeDir matchString options filePath (FsNode.file reads)
          = [⟨filePath, [Event.print "Stat ERROR", Event.send none]⟩]) ∧
      (∀ children, ¬ pruned matchString options filePath →
        TokenizeDir matchString options filePath (FsNode.dir false children)
          = ⟨filePath, dirEvents filePath children.names⟩
              :: tokenizeChildren matchString options filePath children) := by
  refine ⟨?_, ?_, ?_⟩
  · intro readdirFails children hne hm
    exact tokenizeDir_dir_pruned _ _ _ _ _ ⟨hne, by rw [hm]⟩
  · intro reads hne hm
    exact tokenizeDir_file_bad_pattern _ _ _ _ msg hne hm
  · intro children hp
    exact tokenizeDir_dir_listed _ _ _ _ hp

theorem bad_pattern_is_per_path_witness :
    TokenizeDir (fun _ _ => Except.error "missing closing )") ⟨"(", ""⟩ "."
        (FsNode.dir false
          (FsEntries.cons "a.txt" (FsNode.file [asciiBytes "foo bar"]) FsEntries.nil))
      = [⟨".", [Event.send none]⟩] :=
  (bad_pattern_is_per_path (fun _ _ => Except.error "missing closing )") ⟨"(", ""⟩ "."
    "missing closing )").1 false _ (by decide) rfl

/-- C14, as stated, fails: in the walk of a directory whose entry `bad` cannot
be opened, the call for `bad` prints the error and sends the nil map, and the
directory sends the nil map too: no error reaches a parent. -/
theorem failure_not_returned_counterexample :
    TokenizeDir (fun _ _ => Except.ok true) ⟨"", ""⟩ "."
        (FsNode.dir false (FsEntries.cons "bad" FsNode.openFails FsEntries.nil))
      = [⟨".", [Event.readdir, Event.spawn "bad", Event.recv, Event.send none]⟩,
          ⟨"bad", [Event.print "Open ERROR", Event.send none]⟩] := by
  decide

/-- C14, amended: when opening, stat-ing or listing a path fails, the call
starts no child and sends its parent exactly one value, the nil map (an empty
index); an open or stat failure lists nothing; and a directory that is listed
sends the nil map after its receives, whatever its children did.  The channel
carries maps only. -/
theorem failure_sends_empty_index (matchString : MatchString) (options : TokenizeOptions)
    (filePath : Path) :
    (∃ c, TokenizeDir matchString options filePath FsNode.openFails = [c] ∧
        c.path = filePath ∧ c.sent = [none] ∧ c.spawned = [] ∧ c.listed = false) ∧
      (∃ c, TokenizeDir matchString options filePath FsNode.statFails = [c] ∧
        c.path = filePath ∧ c.sent = [none] ∧ c.spawned = [] ∧ c.listed = false) ∧
      (∀ children, ¬ pruned matchString options filePath →
        ∃ c, TokenizeDir matchString options filePath (FsNode.dir true children) = [c] ∧
          c.path = filePath ∧ c.sent = [none] ∧ c.spawned = []) ∧
      (∀ children, ¬ pruned matchString options filePath →
        ∃ call, TokenizeDir matchString options filePath (FsNode.dir false children)
            = call :: tokenizeChildren matchString options filePath children ∧
          call.events = dirEvents filePath children.names ∧ call.sent = [none]) := by
  refine ⟨⟨_, tokenizeDir_openFails _ _ _, rfl, rfl, rfl, rfl⟩,
    ⟨_, tokenizeDir_statFails _ _ _, rfl, rfl, rfl, rfl⟩, ?_, ?_⟩
  · intro children hp
    exact ⟨_, tokenizeDir_dir_unlistable _ _ _ _ hp, rfl, rfl, rfl⟩
  · intro children hp
    exact ⟨_, tokenizeDir_dir_listed _ _ _ _ hp, rfl, dirEvents_sent _ _⟩

theorem failure_sends_empty_index_witness :
    ∃ c, TokenizeDir (fun _ _ => Except.ok true) ⟨"", ""⟩ "locked"
        (FsNode.dir true FsEntries.nil) = [c] ∧
      c.path = "locked" ∧ c.sent = [none] ∧ c.spawned = [] :=
  (failure_sends_empty_index (fun _ _ => Except.ok true) ⟨"", ""⟩ "locked").2.2.1 FsEntries.nil
    (by unfold pruned; decide)

/-- C18: sends and receives are balanced.  Every call of a walk sends exactly
one value on `parentChan`, as its last event, and receives as many times as it
started children; a directory call that lists its entries starts exactly one
call per listed name and receives exactly that many times before its send; and
the calls of a walk are the first call and one call per `spawn`. -/
theorem sends_and_receives_balanced (matchString : MatchString) (options : TokenizeOptions)
    (filePath : Path) (node : FsNode) :
    (∀ c ∈ TokenizeDir matchString options filePath node,
        c.sent.length = 1 ∧ c.events.getLast? = some (Event.send none) ∧
          c.received = c.spawned.length) ∧
      (∀ children, node = FsNode.dir false children → ¬ pruned matchString options filePath →
        ∃ call, TokenizeDir matchString options filePath node
            = call :: tokenizeChildren matchString options filePath children ∧
          call.events = dirEvents filePath children.names ∧
          call.spawned = children.names.map (fun name => joinPath filePath name) ∧
          call.received = children.names.length) ∧
      (TokenizeDir matchString options filePath node).length
        = 1 + ((TokenizeDir matchString options filePath node).map
            (fun c => c.spawned.length)).sum := by
  refine ⟨?_, ?_, walk_count matchString options filePath node⟩
  · exact walk_forall matchString options
      (fun c => c.sent.length = 1 ∧ c.events.getLast? = some (Event.send none) ∧
        c.received = c.spawned.length)
      (fun p n c later h => by
        obtain ⟨h1, h2, h3, _⟩ := tokenizeDir_first_call matchString options p n c later h
        exact ⟨by rw [h1]; rfl, h2, h3⟩)
      filePath node
  · intro children hnode hp
    subst hnode
    exact ⟨_, tokenizeDir_dir_listed _ _ _ _ hp, rfl, dirEvents_spawned _ _,
      dirEvents_received _ _⟩

theorem sends_and_receives_balanced_witness :
    ∃ call, TokenizeDir (fun _ _ => Except.ok true) ⟨"", ".*"⟩ "."
          (FsNode.dir false
            (FsEntries.cons "x" (FsNode.file [asciiBytes "foo bar"])
              (FsEntries.cons "y" FsNode.openFails FsEntries.nil)))
        = call :: tokenizeChildren (fun _ _ => Except.ok true) ⟨"", ".*"⟩ "."
            (FsEntries.cons "x" (FsNode.file [asciiBytes "foo bar"])
              (FsEntries.cons "y" FsNode.openFails FsEntries.nil)) ∧
      call.events = dirEvents "." ["x", "y"] ∧
      call.spawned = ["x", "y"].map (fun name => joinPath "." name) ∧
      call.received = 2 :=
  (sends_and_receives_balanced (fun _ _ => Except.ok true) ⟨"", ".*"⟩ "."
    (FsNode.dir false
      (FsEntries.cons "x" (FsNode.file [asciiBytes "foo bar"])
        (FsEntries.cons "y" FsNode.openFails FsEntries.nil)))).2.1 _ rfl
    (by unfold pruned; decide)

/-! ## One call of `CodeWordSplitter` and the specified tokens -/

/-- A returned token is the first specified token of the stream, and the
others are those of what is left after the consumed bytes. -/
theorem expectedTokens_of_token (data : List Byte) :
    ∀ (e : Bool) (x tok : List Byte), (CodeWordSplitter data e).token = some tok →
      (e = true → x = []) →
      expectedTokens (data ++ x)
        = tok :: expectedTokens (data.drop (CodeWordSplitter data e).advance ++ x) := by
  induction data using first_run_induction with
  | all_word w hw =>
    intro e x tok h hx
    rw [codeWordSplitter_all_word _ _ hw] at h ⊢
    cases e
    · simp at h
    · have hx' := hx rfl
      subst hx'
      by_cases hl : 2 ≤ w.length
      · simp only [if_true, if_pos hl, Option.some.injEq] at h ⊢
        subst h
        rw [List.append_nil, expectedTokens_all_word _ hw, if_pos hl, List.drop_length]
        rfl
      · simp [hl] at h
  | step w sp rest hw hsp ih =>
    intro e x tok h hx
    rw [codeWordSplitter_run_splitter _ _ _ _ hw hsp] at h ⊢
    rw [List.append_assoc, List.cons_append, expectedTokens_run_splitter _ _ _ hw hsp]
    by_cases hl : 2 ≤ w.length
    · simp only [if_pos hl, Option.some.injEq] at h ⊢
      subst h
      have h0 : expectedTokens (sp :: rest ++ x) = expectedTokens (rest ++ x) := by
        have := expectedTokens_run_splitter [] (rest ++ x) sp (by simp) hsp
        simpa using this
      rw [List.drop_left, h0]
      rfl
    · simp only [if_neg hl, SplitResult.shift, List.nil_append] at h ⊢
      rw [drop_run_splitter]
      exact ih e x tok h hx

/-- Before the end of the stream, a call without token consumes no byte of a
specified token. -/
theorem expectedTokens_of_chunk_none (data : List Byte) :
    ∀ x : List Byte, (CodeWordSplitter data false).token = none →
      expectedTokens (data ++ x)
        = expectedTokens (data.drop (CodeWordSplitter data false).advance ++ x) := by
  induction data using first_run_induction with
  | all_word w hw =>
    intro x _
    rw [codeWordSplitter_all_word _ _ hw]
    simp
  | step w sp rest hw hsp ih =>
    intro x h
    rw [codeWordSplitter_run_splitter _ _ _ _ hw hsp] at h ⊢
    rw [List.append_assoc, List.cons_append, expectedTokens_run_splitter _ _ _ hw hsp]
    by_cases hl : 2 ≤ w.length
    · simp [hl] at h
    · simp only [if_neg hl, SplitResult.shift, List.nil_append] at h ⊢
      rw [drop_run_splitter]
      exact ih x h

/-- At the end of the stream, a call without token means no specified token is
left. -/
theorem expectedTokens_of_eof_none (data : List Byte) :
    (CodeWordSplitter data true).token = none → expectedTokens data = [] := by
  induction data using first_run_induction with
  | all_word w hw =>
    rw [codeWordSplitter_all_word _ _ hw, expectedTokens_all_word _ hw]
    by_cases hl : 2 ≤ w.length <;> simp [hl]
  | step w sp rest hw hsp ih =>
    rw [codeWordSplitter_run_splitter _ _ _ _ hw hsp, expectedTokens_run_splitter _ _ _ hw hsp]
    by_cases hl : 2 ≤ w.length
    · simp [hl]
    · simp only [if_neg hl, SplitResult.shift, List.nil_append]
      exact ih

/-- Before the end of the stream, a call that returns no token and consumes
nothing was made on word bytes only. -/
theorem codeWordSplitter_stall (data : List Byte)
    (_h : (CodeWordSplitter data false).token = none)
    (h0 : (CodeWordSplitter data false).advance = 0) :
    ∀ b ∈ data, isSplitter b = false := by
  rcases word_run_decomp data with hw | ⟨w, sp, rest, rfl, hw, hsp⟩
  · exact hw
  · rw [codeWordSplitter_run_splitter _ _ _ _ hw hsp] at h0 _h
    by_cases hl : 2 ≤ w.length
    · simp [hl] at _h
    · simp only [if_neg hl, SplitResult.shift] at h0
      omega

/-! ## One round of the scanner -/

theorem scanRun_succ (fuel : Nat) (s : Scanner) (rest : List Byte) (sizes : List Nat) :
    scanRun (fuel + 1) s rest sizes =
      match s.splitStep with
      | SplitStep.stop err => some ([], err)
      | SplitStep.token tok s1 =>
        (scanRun fuel s1 rest sizes).map (fun r => (tok :: r.1, r.2))
      | SplitStep.more s1 =>
        if s1.err.isSome then
          some ([], s1.err)
        else
          match s1.grow with
          | Sum.inl err => some ([], err)
          | Sum.inr s2 =>
            scanRun fuel (readLoop s2 rest sizes 0).1 (readLoop s2 rest sizes 0).2.1
              (readLoop s2 rest sizes 0).2.2 := rfl

/-- With nothing held and no error recorded the split function is not called. -/
theorem splitStep_idle (s : Scanner) (h1 : s.held = []) (h2 : s.err = none) :
    s.splitStep = SplitStep.more s := by
  unfold Scanner.splitStep
  simp [h1, h2]

/-- A token of `CodeWordSplitter` is a token of the scanner, whose held bytes
lose the consumed ones. -/
theorem splitStep_token (s : Scanner) (hcall : s.held ≠ [] ∨ s.err ≠ none) (tok : List Byte)
    (ht : (CodeWordSplitter s.held s.err.isSome).token = some tok) :
    s.splitStep = SplitStep.token tok
      { s with start := s.start + (CodeWordSplitter s.held s.err.isSome).advance,
               held := s.held.drop (CodeWordSplitter s.held s.err.isSome).advance,
               empties := 0 } := by
  obtain ⟨herr, hadv, _⟩ := codeWordSplitter_contract s.held s.err.isSome
  obtain ⟨h2, _, h3, _⟩ := codeWordSplitter_token s.held s.err.isSome tok ht
  have hc : (!s.held.isEmpty || s.err.isSome) = true := by
    rcases hcall with h | h
    · cases hh : s.held with
      | nil => exact absurd hh h
      | cons a l => simp
    · cases he : s.err with
      | none => exact absurd he h
      | some e => simp
  have hpos : 0 < (CodeWordSplitter s.held s.err.isSome).advance := by omega
  unfold Scanner.splitStep
  simp only [hc, if_true, herr, ht, Nat.not_lt.2 hadv, if_false, hpos, decide_True,
    Bool.or_true]

/-- Without a token the scanner goes on to read, its held bytes having lost the
consumed ones. -/
theorem splitStep_none (s : Scanner) (hcall : s.held ≠ [] ∨ s.err ≠ none)
    (ht : (CodeWordSplitter s.held s.err.isSome).token = none) :
    s.splitStep = SplitStep.more
      { s with start := s.start + (CodeWordSplitter s.held s.err.isSome).advance,
               held := s.held.drop (CodeWordSplitter s.held s.err.isSome).advance } := by
  obtain ⟨herr, hadv, _⟩ := codeWordSplitter_contract s.held s.err.isSome
  have hc : (!s.held.isEmpty || s.err.isSome) = true := by
    rcases hcall with h | h
    · cases hh : s.held with
      | nil => exact absurd hh h
      | cons a l => simp
    · cases he : s.err with
      | none => exact absurd he h
      | some e => simp
  unfold Scanner.splitStep
  simp only [hc, if_true, herr, ht, Nat.not_lt.2 hadv, if_false]

theorem maxInt_half : maxInt / 2 = 4611686018427387903 := by decide

theorem maxScanTokenSize_eq : maxScanTokenSize = 65536 := by decide

/-- A full buffer of `maxScanTokenSize` bytes held from its start cannot grow:
the scanner stops with `ErrTooLong`. -/
theorem grow_tooLong (s : Scanner) (h0 : s.start = 0) (hfull : s.held.length = s.bufLen)
    (hcap : maxScanTokenSize ≤ s.bufLen) :
    s.grow = Sum.inl (setErr s.err ScanError.tooLong) := by
  unfold Scanner.grow
  simp [h0, hfull, hcap]

/-- In every other case the buffer has room for at least one more byte after the
shift and the doubling, and the held bytes and the error are as before. -/
theorem grow_room (s : Scanner) (hwf : s.wf)
    (hno : ¬ (s.start = 0 ∧ s.held.length = maxScanTokenSize)) :
    ∃ s2, s.grow = Sum.inr s2 ∧ s2.held = s.held ∧ s2.err = s.err ∧
      s2.start + s2.held.length < s2.bufLen ∧ s2.bufLen ≤ maxScanTokenSize ∧
      (s.start = 0 → s2.start = 0) := by
  obtain ⟨h1, h2⟩ := hwf
  have hmax := maxInt_half
  have hcapv := maxScanTokenSize_eq
  unfold Scanner.grow
  by_cases hshift : 0 < s.start ∧
      (s.start + s.held.length = s.bufLen ∨ s.bufLen / 2 < s.start)
  · have hc : (decide (0 < s.start) &&
        (decide (s.start + s.held.length = s.bufLen) || decide (s.bufLen / 2 < s.start)))
        = true := by
      simpa using hshift
    simp only [hc, if_true]
    have hnf : ¬ (0 + s.held.length = s.bufLen) := by omega
    simp only [hnf, if_false]
    exact ⟨_, rfl, rfl, rfl, by simp only; omega, h2, fun h => by omega⟩
  · have hc : (decide (0 < s.start) &&
        (decide (s.start + s.held.length = s.bufLen) || decide (s.bufLen / 2 < s.start)))
        = false := by
      simpa using hshift
    simp only [hc, Bool.false_eq_true, if_false]
    by_cases hfull : s.start + s.held.length = s.bufLen
    · have hlt : ¬ (maxScanTokenSize ≤ s.bufLen ∨ maxInt / 2 < s.bufLen) := by
        have h0 : s.start = 0 := by
          by_contra hne
          exact hshift ⟨by omega, Or.inl hfull⟩
        have : s.held.length ≠ maxScanTokenSize := fun h => hno ⟨h0, h⟩
        omega
      simp only [hfull, if_true, hlt, if_false]
      refine ⟨_, rfl, rfl, rfl, ?_, ?_, fun _ => rfl⟩
      · simp only
        have h0 : s.start = 0 := by
          by_contra hne
          exact hshift ⟨by omega, Or.inl hfull⟩
        unfold startBufSize
        split <;> omega
      · simp only
        omega
    · simp only [hfull, if_false]
      exact ⟨_, rfl, rfl, rfl, by omega, h2, fun h => h⟩

/-- At the end of the file the read records `io.EOF`. -/
theorem readLoop_eof (s : Scanner) (sizes : List Nat) (loop : Nat) :
    readLoop s [] sizes loop = ({ s with err := setErr s.err ScanError.eof }, [], sizes) := by
  cases sizes <;> simp [readLoop]

/-- Before the end of the file a reader that returns at least one byte per call
adds between one byte and the free room of the buffer to the held bytes. -/
theorem readLoop_data (s : Scanner) (rest : List Byte) (hrest : rest ≠ [])
    (hroom : s.start + s.held.length < s.bufLen) :
    ∀ (sizes : List Nat) (loop : Nat), (∀ k ∈ sizes, 0 < k) →
      ∃ n sizes', 0 < n ∧ s.start + s.held.length + n ≤ s.bufLen ∧
        (∀ k ∈ sizes', 0 < k) ∧
        readLoop s rest sizes loop
          = ({ s with held := s.held ++ rest.take n, empties := 0 }, rest.drop n, sizes') := by
  intro sizes loop hpos
  have hne : ∀ n, 0 < n → (rest.take n).isEmpty = false := by
    intro n hn
    cases rest with
    | nil => exact absurd rfl hrest
    | cons a l =>
      cases n with
      | zero => omega
      | succ n => rfl
  have hre : rest.isEmpty = false := by
    cases rest with
    | nil => exact absurd rfl hrest
    | cons a l => rfl
  cases sizes with
  | nil =>
    refine ⟨s.bufLen - (s.start + s.held.length), [], by omega, by omega, by simp, ?_⟩
    simp only [readLoop, hre, Bool.false_eq_true, if_false, hne _ (by omega : 0 <
      s.bufLen - (s.start + s.held.length))]
  | cons k later =>
    have hk : 0 < k := hpos k (List.mem_cons_self _ _)
    have hmin : 0 < min k (s.bufLen - (s.start + s.held.length)) := by
      apply Nat.lt_min.2
      exact ⟨hk, by omega⟩
    refine ⟨min k (s.bufLen - (s.start + s.held.length)), later, hmin, ?_,
      fun j hj => hpos j (List.mem_cons_of_mem _ hj), ?_⟩
    · have := Nat.min_le_right k (s.bufLen - (s.start + s.held.length))
      omega
    · simp only [readLoop, hre, Bool.false_eq_true, if_false, hne _ hmin]

/-! ## The scanner on a file without over-long runs -/

theorem runsBelow_drop (cap : Nat) (held rest : List Byte) (a : Nat)
    (h : RunsBelow cap (held ++ rest)) : RunsBelow cap (held.drop a ++ rest) := by
  intro w hw hword
  refine h w (hw.trans ?_) hword
  have hs : held.drop a ++ rest <:+ held ++ rest :=
    ⟨held.take a, by rw [← List.append_assoc, List.take_append_drop]⟩
  exact hs.isInfix

/-- The rounds after a round without token: the buffer grows, the reader is
asked, and the scan goes on with what was read, as long as the held bytes are
not a full buffer of `maxScanTokenSize` bytes. -/
theorem scanRun_read (fuel : Nat)
    (ih : ∀ (s : Scanner) (rest : List Byte) (sizes : List Nat), s.wf →
      (s.err = none ∨ (s.err = some ScanError.eof ∧ rest = [])) →
      RunsBelow maxScanTokenSize (s.held ++ rest) → (∀ k ∈ sizes, 0 < k) →
      scanRunFuel s rest ≤ fuel →
      scanRun fuel s rest sizes = some (expectedTokens (s.held ++ rest), some ScanError.eof))
    (s1 : Scanner) (rest : List Byte) (sizes : List Nat) (hwf : s1.wf) (herr : s1.err = none)
    (hno : ¬ (s1.start = 0 ∧ s1.held.length = maxScanTokenSize))
    (hruns : RunsBelow maxScanTokenSize (s1.held ++ rest)) (hpos : ∀ k ∈ sizes, 0 < k)
    (hfuel : scanRunFuel s1 rest ≤ fuel + 1) :
    (match s1.grow with
      | Sum.inl err => some ([], err)
      | Sum.inr s2 =>
        scanRun fuel (readLoop s2 rest sizes 0).1 (readLoop s2 rest sizes 0).2.1
          (readLoop s2 rest sizes 0).2.2)
      = some (expectedTokens (s1.held ++ rest), some ScanError.eof) := by
  obtain ⟨s2, hg, hheld, herr2, hroom, hcap, _⟩ := grow_room s1 hwf hno
  rw [hg]
  simp only
  have hf1 : scanRunFuel s1 rest = s1.held.length + 2 * rest.length + 2 := by
    simp [scanRunFuel, herr]
  by_cases hrest : rest = []
  · subst hrest
    rw [readLoop_eof]
    simp only
    have hs : setErr s2.err ScanError.eof = some ScanError.eof := by
      rw [herr2, herr]; rfl
    rw [hs]
    have := ih { s2 with err := some ScanError.eof } [] sizes ⟨by simp only; omega, hcap⟩
      (Or.inr ⟨rfl, rfl⟩) (by simpa [hheld] using hruns) hpos
      (by simp [scanRunFuel, hheld]; omega)
    rw [this, hheld]
  · obtain ⟨n, sizes', hn, hle, hpos', hread⟩ := readLoop_data s2 rest hrest hroom sizes 0 hpos
    rw [hread]
    simp only
    have htake : 0 < (rest.take n).length := by
      cases rest with
      | nil => exact absurd rfl hrest
      | cons a l =>
        cases n with
        | zero => omega
        | succ n => simp
    have hlen : (rest.take n).length + (rest.drop n).length = rest.length := by
      rw [← List.length_append, List.take_append_drop]
    have htn : (rest.take n).length ≤ n := by
      rw [List.length_take]; exact Nat.min_le_left _ _
    have hjoin : (s2.held ++ rest.take n) ++ rest.drop n = s1.held ++ rest := by
      rw [List.append_assoc, List.take_append_drop, hheld]
    have := ih { s2 with held := s2.held ++ rest.take n, empties := 0 } (rest.drop n) sizes'
      ⟨by simp only [List.length_append]; omega, hcap⟩
      (Or.inl (by simp only; rw [herr2, herr]))
      (by simp only; rw [hjoin]; exact hruns) hpos'
      (by
        simp only [scanRunFuel, List.length_append, herr2, herr, Option.isSome_none,
          Bool.false_eq_true, if_false]
        rw [hheld]
        omega)
    rw [this]
    simp only
    rw [hjoin]

/-- On a file without a run of `maxScanTokenSize` word bytes, read by a reader
that returns at least one byte per call, the scanner ends at the end of the file
and has then emitted the specified tokens of the bytes held and still to read. -/
theorem scanRun_emits (fuel : Nat) :
    ∀ (s : Scanner) (rest : List Byte) (sizes : List Nat), s.wf →
      (s.err = none ∨ (s.err = some ScanError.eof ∧ rest = [])) →
      RunsBelow maxScanTokenSize (s.held ++ rest) → (∀ k ∈ sizes, 0 < k) →
      scanRunFuel s rest ≤ fuel →
      scanRun fuel s rest sizes = some (expectedTokens (s.held ++ rest), some ScanError.eof) := by
  induction fuel with
  | zero =>
    intro s rest sizes _ _ _ _ hf
    unfold scanRunFuel at hf
    split at hf <;> omega
  | succ fuel ih =>
    intro s rest sizes hwf herr hruns hpos hf
    rw [scanRun_succ]
    by_cases hidle : s.held = [] ∧ s.err = none
    · rw [splitStep_idle s hidle.1 hidle.2]
      simp only [hidle.2, Option.isSome_none, Bool.false_eq_true, if_false]
      refine scanRun_read fuel ih s rest sizes hwf hidle.2 ?_ hruns hpos hf
      intro h
      rw [hidle.1, maxScanTokenSize_eq] at h
      simp at h
    · have hcall : s.held ≠ [] ∨ s.err ≠ none := by
        by_cases hh : s.held = []
        · exact Or.inr (fun he => hidle ⟨hh, he⟩)
        · exact Or.inl hh
      obtain ⟨_, hadv, _⟩ := codeWordSplitter_contract s.held s.err.isSome
      have hwf1 : ∀ e : Nat, Scanner.wf
          { s with start := s.start + (CodeWordSplitter s.held s.err.isSome).advance,
                   held := s.held.drop (CodeWordSplitter s.held s.err.isSome).advance,
                   empties := e } := by
        intro e
        refine ⟨?_, hwf.2⟩
        have := hwf.1
        simp only [List.length_drop]
        omega
      cases ht : (CodeWordSplitter s.held s.err.isSome).token with
      | some tok =>
        obtain ⟨h2, _, h3, _⟩ := codeWordSplitter_token s.held s.err.isSome tok ht
        rw [splitStep_token s hcall tok ht]
        simp only
        have hx : s.err.isSome = true → rest = [] := by
          intro he
          rcases herr with h | ⟨_, h⟩
          · rw [h] at he; cases he
          · exact h
        have := ih _ rest sizes (hwf1 0) (by simpa using herr)
          (by simpa using runsBelow_drop _ _ _ _ hruns) hpos
          (by
            unfold scanRunFuel at hf ⊢
            simp only [List.length_drop]
            split at hf <;> simp_all <;> omega)
        rw [this]
        simp only [Option.map_some']
        rw [expectedTokens_of_token s.held s.err.isSome rest tok ht hx]
      | none =>
        rw [splitStep_none s hcall ht]
        simp only
        rcases herr with he | ⟨he, hr⟩
        · simp only [he, Option.isSome_none, Bool.false_eq_true, if_false]
          rw [he] at ht
          simp only [Option.isSome_none] at ht
          have hgo := scanRun_read fuel ih
            { s with start := s.start + (CodeWordSplitter s.held false).advance,
                     held := s.held.drop (CodeWordSplitter s.held false).advance }
            rest sizes
            (by have := hwf1 s.empties; simpa [he] using this) he
            (by
              simp only
              rintro ⟨h0, hlen⟩
              have ha : (CodeWordSplitter s.held false).advance = 0 := by omega
              rw [ha, List.drop_zero] at hlen
              have hword := codeWordSplitter_stall s.held ht ha
              have := hruns s.held ⟨[], rest, by simp⟩ hword
              omega)
            (by simpa using runsBelow_drop _ _ _ _ hruns) hpos
            (by
              unfold scanRunFuel at hf ⊢
              simp only [List.length_drop, he, Option.isSome_none, Bool.false_eq_true,
                if_false] at hf ⊢
              omega)
          simp only [he, Option.isSome_none] at hgo ⊢
          rw [hgo, expectedTokens_of_chunk_none s.held rest ht]
        · subst hr
          simp only [he, Option.isSome_some, if_true]
          rw [he] at ht
          simp only [Option.isSome_some] at ht
          rw [List.append_nil, expectedTokens_of_eof_none s.held ht]

/-! ## The scanner on a run of `maxScanTokenSize` word bytes -/

/-- On word bytes only, before the end of the file, a round of the scanner
leaves it as it is and goes on to read. -/
theorem splitStep_all_word (s : Scanner) (herr : s.err = none)
    (hword : ∀ b ∈ s.held, isSplitter b = false) :
    s.splitStep = SplitStep.more s := by
  by_cases hh : s.held = []
  · exact splitStep_idle s hh herr
  · have hc : CodeWordSplitter s.held s.err.isSome = ⟨0, none, none⟩ := by
      rw [herr, codeWordSplitter_all_word _ _ hword]
      rfl
    have := splitStep_none s (Or.inl hh) (by rw [hc])
    rw [this, hc]
    simp only [Nat.add_zero, List.drop_zero]

/-- When the bytes held and still to read begin with `maxScanTokenSize` word
bytes, the scanner reads until its buffer is full of them and stops with
`ErrTooLong`, having emitted nothing. -/
theorem scanRun_tooLong (fuel : Nat) :
    ∀ (s : Scanner) (rest : List Byte) (sizes : List Nat), s.wf → s.start = 0 →
      s.err = none → (∀ b ∈ s.held, isSplitter b = false) → (∀ k ∈ sizes, 0 < k) →
      (∃ w x, rest = w ++ x ∧ (∀ b ∈ w, isSplitter b = false) ∧
        s.held.length + w.length = maxScanTokenSize) →
      maxScanTokenSize - s.held.length + 1 ≤ fuel →
      scanRun fuel s rest sizes = some ([], some ScanError.tooLong) := by
  induction fuel with
  | zero =>
    intro s rest sizes _ _ _ _ _ _ hf
    omega
  | succ fuel ih =>
    intro s rest sizes hwf h0 herr hword hpos hrun hf
    obtain ⟨w, x, hrest, hw, hlen⟩ := hrun
    rw [scanRun_succ, splitStep_all_word s herr hword]
    simp only [herr, Option.isSome_none, Bool.false_eq_true, if_false]
    by_cases hfull : s.held.length = maxScanTokenSize
    · have hb : s.held.length = s.bufLen := by
        have := hwf.1
        have := hwf.2
        omega
      rw [grow_tooLong s h0 hb (by omega), herr]
      rfl
    · obtain ⟨s2, hg, hheld, herr2, hroom, hcap, hstart⟩ :=
        grow_room s hwf (fun h => hfull h.2)
      have hs0 := hstart h0
      have hwpos : 0 < w.length := by omega
      have hrne : rest ≠ [] := by
        rw [hrest]
        cases w with
        | nil => simp at hwpos
        | cons a l => simp
      obtain ⟨n, sizes', hn, hle, hpos', hread⟩ :=
        readLoop_data s2 rest hrne hroom sizes 0 hpos
      rw [hg]
      simp only
      rw [hread]
      simp only
      have hnw : n ≤ w.length := by
        rw [hheld] at hle
        omega
      have htake : rest.take n = w.take n := by
        rw [hrest, List.take_append_of_le_length hnw]
      have hdrop : rest.drop n = w.drop n ++ x := by
        rw [hrest, List.drop_append_of_le_length hnw]
      have htl : (w.take n).length = n := by
        rw [List.length_take]; omega
      refine ih _ _ sizes' ⟨by simp only [List.length_append, htake, htl]; omega, hcap⟩
        hs0 (by simp only; rw [herr2, herr]) ?_ hpos' ⟨w.drop n, x, hdrop, ?_, ?_⟩ ?_
      · intro b hb
        simp only [List.mem_append] at hb
        rcases hb with hb | hb
        · exact hword b (by rw [← hheld]; exact hb)
        · rw [htake] at hb
          exact hw b (List.mem_of_mem_take hb)
      · intro b hb
        exact hw b (List.mem_of_mem_drop hb)
      · simp only [List.length_append, htake, htl, List.length_drop, hheld]
        omega
      · simp only [List.length_append, htake, htl, hheld]
        omega

/-! ## The scanner of `TokenizeFile` and the specified tokens -/

theorem newScanner_wf : NewScanner.wf := by
  unfold Scanner.wf NewScanner maxScanTokenSize
  simp

/-- A file that begins with `maxScanTokenSize` word bytes stops the scanner with
`ErrTooLong` before any token. -/
theorem scanRun_tooLong_start (w x : List Byte) (sizes : List Nat) (fuel : Nat)
    (hw : ∀ b ∈ w, isSplitter b = false) (hlen : w.length = maxScanTokenSize)
    (hpos : ∀ k ∈ sizes, 0 < k) (hfuel : maxScanTokenSize + 1 ≤ fuel) :
    scanRun fuel NewScanner (w ++ x) sizes = some ([], some ScanError.tooLong) := by
  refine scanRun_tooLong fuel NewScanner (w ++ x) sizes newScanner_wf rfl rfl ?_ hpos
    ⟨w, x, rfl, hw, ?_⟩ ?_
  · intro b hb
    cases hb
  · simp only [NewScanner, List.length_nil, Nat.zero_add, hlen]
  · simp only [NewScanner, List.length_nil, Nat.sub_zero]
    exact hfuel

/-- The same for `TokenizeFile`: nothing is scanned. -/
theorem tokenizeFile_tooLong (filePath : Path) (w x : List Byte)
    (hw : ∀ b ∈ w, isSplitter b = false) (hlen : w.length = maxScanTokenSize) :
    TokenizeFile filePath [w ++ x] = some [] := by
  have hcap := maxScanTokenSize_eq
  unfold TokenizeFile
  simp only [List.flatten_cons, List.flatten_nil, List.append_nil, List.map_cons,
    List.map_nil]
  rw [scanRun_tooLong_start w x _ _ hw hlen]
  · rfl
  · intro k hk
    rw [List.mem_singleton.1 hk, List.length_append]
    omega
  · simp only [scanRunFuel, NewScanner, List.length_nil, List.length_append,
      Option.isSome_none, Bool.false_eq_true, if_false]
    omega

/-- A run of `maxScanTokenSize` word bytes closed by a splitter is a specified
token. -/
theorem expectedTokens_long_run (w x : List Byte) (sp : Byte)
    (hw : ∀ b ∈ w, isSplitter b = false) (hlen : w.length = maxScanTokenSize)
    (hsp : isSplitter sp = true) :
    expectedTokens (w ++ sp :: x) = w :: expectedTokens x := by
  have hcap := maxScanTokenSize_eq
  rw [expectedTokens_run_splitter _ _ _ hw hsp, if_pos (by omega)]
  rfl

theorem replicate_a_word (n : Nat) : ∀ b ∈ List.replicate n (97 : Byte), isSplitter b = false := by
  intro b hb
  rw [List.eq_of_mem_replicate hb]
  decide

theorem replicate_a_length :
    (List.replicate 65536 (97 : Byte)).length = maxScanTokenSize :=
  (List.length_replicate 65536 (97 : Byte)).trans maxScanTokenSize_eq.symm

/-- C1, as stated, fails: on the file made of 65536 bytes `a` followed by
` foo bar`, the scanner of `TokenizeFile` fills its buffer with the run of `a`,
stops with `ErrTooLong` and has emitted no token, while the maximal runs of word
bytes of length at least 2 are the run of `a`, `foo` and `bar`. -/
theorem scanner_too_long_counterexample :
    TokenizeFile "big.txt" [List.replicate 65536 (97 : Byte) ++ (32 :: asciiBytes "foo bar")]
        = some [] ∧
      scanRun 65537 NewScanner
          (List.replicate 65536 (97 : Byte) ++ (32 :: asciiBytes "foo bar")) []
        = some ([], some ScanError.tooLong) ∧
      (wordRuns (List.replicate 65536 (97 : Byte) ++ (32 :: asciiBytes "foo bar"))).filter
          (fun run => decide (2 ≤ run.length))
        = List.replicate 65536 (97 : Byte) :: [asciiBytes "foo", asciiBytes "bar"] :=
  ⟨tokenizeFile_tooLong "big.txt" _ _ (replicate_a_word 65536) replicate_a_length,
    scanRun_tooLong_start _ _ [] 65537 (replicate_a_word 65536) replicate_a_length
      (fun _ hk => nomatch hk) (by decide),
    (expectedTokens_long_run _ (asciiBytes "foo bar") 32 (replicate_a_word 65536)
      replicate_a_length (by decide)).trans
      (congrArg (fun l => List.replicate 65536 (97 : Byte) :: l)
        (by decide : expectedTokens (asciiBytes "foo bar")
          = [asciiBytes "foo", asciiBytes "bar"]))⟩

/-- C1, amended: for every finite byte sequence `s` in which every run of
consecutive word bytes is shorter than 65536 bytes (`bufio.MaxScanTokenSize`),
read by a reader that returns at least one byte per call until the end of the
file, the scanner that drives `CodeWordSplitter` ends at the end of the file and
has then emitted exactly the maximal runs of word bytes of `s` whose length is at
least 2, in left-to-right order, each as the unchanged bytes of the run (so
shorter runs are dropped, a repeated token is emitted at each occurrence, and a
run that ends the stream counts like any other); so does `TokenizeFile` on every
cut of `s` into non-empty reads. -/
theorem scanner_emits_word_runs_below_cap (s : List Byte) (sizes : List Nat) (fuel : Nat)
    (hruns : RunsBelow maxScanTokenSize s) (hsizes : ∀ k ∈ sizes, 0 < k)
    (hfuel : 2 * s.length + 2 ≤ fuel) :
    scanRun fuel NewScanner s sizes
        = some ((wordRuns s).filter (fun run => decide (2 ≤ run.length)),
            some ScanError.eof) ∧
      ∀ (filePath : Path) (reads : List (List Byte)), reads.flatten = s →
        (∀ c ∈ reads, c ≠ []) →
        TokenizeFile filePath reads
          = some ((wordRuns s).filter (fun run => decide (2 ≤ run.length))) := by
  have hgen : ∀ (sizes : List Nat) (fuel : Nat), (∀ k ∈ sizes, 0 < k) →
      2 * s.length + 2 ≤ fuel →
      scanRun fuel NewScanner s sizes = some (expectedTokens s, some ScanError.eof) := by
    intro sizes fuel hpos hf
    have h := scanRun_emits fuel NewScanner s sizes newScanner_wf (Or.inl rfl)
      (by simpa [NewScanner] using hruns) hpos
      (by simp only [scanRunFuel, NewScanner, List.length_nil, Option.isSome_none,
            Bool.false_eq_true, if_false]; omega)
    simpa [NewScanner] using h
  refine ⟨hgen sizes fuel hsizes hfuel, ?_⟩
  intro filePath reads hflat hne
  unfold TokenizeFile
  rw [hflat, hgen _ _ (by
    intro k hk
    obtain ⟨c, hc, rfl⟩ := List.mem_map.1 hk
    exact List.length_pos.2 (hne c hc)) (by
    simp only [scanRunFuel, NewScanner, List.length_nil, Option.isSome_none,
      Bool.false_eq_true, if_false]; omega)]
  rfl

theorem scanner_emits_word_runs_below_cap_witness :
    scanRun 100 NewScanner (asciiBytes "a func x main() \x7b\x7d\n go go") [3, 1, 5]
      = some ([asciiBytes "func", asciiBytes "main", asciiBytes "go", asciiBytes "go"],
          some ScanError.eof) :=
  (scanner_emits_word_runs_below_cap (asciiBytes "a func x main() \x7b\x7d\n go go")
    [3, 1, 5] 100
    (fun w hw _ => Nat.lt_of_le_of_lt hw.length_le (by decide))
    (by decide) (by decide)).1

end Srctoken
